import Mathlib

/-!
Verification of the personal-assistant repository (contacts, notes,
prefix-matching command dispatcher, fuzzy suggestions).

Strings are modelled as lists of characters (`Str`); Python's `str`
methods used by the source (`strip`, `lower`, `replace(" ", "")`,
`split`, `startswith`, slicing) are embedded as explicit functions.
Fallible Python code (code that raises `ValidationError`) is embedded
with `Except`.
-/

deriving instance DecidableEq for Except

namespace PersonalAssistant

abbrev Str := List Char

/-- Python `str.strip()`: drop leading and trailing whitespace. -/
def pyStrip (s : Str) : Str :=
  ((s.dropWhile Char.isWhitespace).reverse.dropWhile Char.isWhitespace).reverse

/-- Python `str.lower()` (ASCII case folding). -/
def pyLower (s : Str) : Str := s.map Char.toLower

/-- Python `str.replace(" ", "")`. -/
def removeSpaces (s : Str) : Str := s.filter (fun c => c ≠ ' ')

theorem dropWhile_length_le (p : Char → Bool) (l : Str) :
    (l.dropWhile p).length ≤ l.length := by
  induction l with
  | nil => simp [List.dropWhile]
  | cons c rest ih =>
    simp only [List.dropWhile]
    split
    · exact Nat.le_succ_of_le ih
    · simp

/-- Python `str.split()` with no arguments: split on whitespace runs,
dropping empty pieces. -/
def pySplit : Str → List Str
  | [] => []
  | c :: rest =>
    if c.isWhitespace then pySplit rest
    else (c :: rest.takeWhile (fun x => ¬ x.isWhitespace)) ::
      pySplit (rest.dropWhile (fun x => ¬ x.isWhitespace))
termination_by s => s.length
decreasing_by
  all_goals simp_wf
  all_goals first
    | omega
    | exact Nat.lt_succ_of_le (dropWhile_length_le _ _)

/-- Python `" ".join(ws)`. -/
def joinSpace (ws : List Str) : Str := List.intercalate [' '] ws

/-- Split a string at every occurrence of `sep` (Python `s.split(sep)`). -/
def splitChar (sep : Char) : Str → List Str
  | [] => [[]]
  | c :: rest =>
    if c = sep then [] :: splitChar sep rest
    else match splitChar sep rest with
      | [] => [[c]]
      | p :: ps => (c :: p) :: ps

/-- Python `s.split(sep, maxsplit=1)` when `sep` occurs: the part before the
first occurrence and the part after it. `none` when `sep` does not occur. -/
def splitFirst (sep : Char) : Str → Option (Str × Str)
  | [] => none
  | c :: rest =>
    if c = sep then some ([], rest)
    else (splitFirst sep rest).map (fun p => (c :: p.1, p.2))

/-- Split at the last occurrence of `sep`; `none` when `sep` does not occur. -/
def splitLast (sep : Char) : Str → Option (Str × Str)
  | [] => none
  | c :: rest =>
    match splitLast sep rest with
    | some (x, y) => some (c :: x, y)
    | none => if c = sep then some ([], rest) else none

/-- `s` contains ".." as a contiguous substring. -/
def hasDoubleDot : Str → Bool
  | c1 :: c2 :: rest => (c1 = '.' && c2 = '.') || hasDoubleDot (c2 :: rest)
  | _ => false

/-! ## fields.py -/

/-- `fields.Name.validate`: non-empty after trimming, returns the trimmed
value. -/
def Name.validate (value : Str) : Except Unit Str :=
  if pyStrip value = [] then .error () else .ok (pyStrip value)

/-- The regex `^\+?\d{7,15}$` from `fields.Phone.PHONE_PATTERN`: an
optional leading `+` followed by 7 to 15 digits, matching the whole
string. -/
def phonePattern (s : Str) : Bool :=
  let ds := if s.head? = some '+' then s.tail else s
  ds.all Char.isDigit && 7 ≤ ds.length && ds.length ≤ 15

/-- `fields.Phone.validate`: trim, strip spaces, match `^\+?\d{7,15}$`. -/
def Phone.validate (value : Str) : Except Unit Str :=
  let digits := removeSpaces (pyStrip value)
  if phonePattern digits then .ok digits else .error ()

/-- Character class `[A-Za-z0-9._%+-]` (local part of the email regex). -/
def isEmailLocalChar (c : Char) : Bool :=
  c.isAlpha || c.isDigit || c = '.' || c = '_' || c = '%' || c = '+' || c = '-'

/-- Character class `[A-Za-z0-9.-]` (domain part of the email regex). -/
def isEmailDomChar (c : Char) : Bool :=
  c.isAlpha || c.isDigit || c = '.' || c = '-'

/-- The regex `^(?=.{3,254}$)(?!.*\.\.)[A-Za-z0-9._%+-]+@[A-Za-z0-9.-]+\.[A-Za-z]{2,}$`
from `fields.Email.EMAIL_PATTERN`.  The local part stops at the first `@`
(the local character class excludes `@`); the final `\.[A-Za-z]{2,}$` can
only anchor at the last dot of the domain. -/
def emailPattern (s : Str) : Bool :=
  3 ≤ s.length && s.length ≤ 254 && !hasDoubleDot s &&
    match splitFirst '@' s with
    | none => false
    | some (localPart, dom) =>
      !localPart.isEmpty && localPart.all isEmailLocalChar &&
        match splitLast '.' dom with
        | none => false
        | some (x, y) =>
          !x.isEmpty && x.all isEmailDomChar && 2 ≤ y.length && y.all Char.isAlpha

/-- `fields.Email.validate`: trim, match the email regex. -/
def Email.validate (value : Str) : Except Unit Str :=
  let cleaned := pyStrip value
  if emailPattern cleaned then .ok cleaned else .error ()

/-- `fields.Address.validate`: non-empty after trimming. -/
def Address.validate (value : Str) : Except Unit Str :=
  let cleaned := pyStrip value
  if cleaned = [] then .error () else .ok cleaned

/-! ## Calendar dates (datetime values used by Birthday) -/

structure Date where
  year : Nat
  month : Nat
  day : Nat
deriving DecidableEq, Repr

/-- Gregorian leap-year rule. -/
def isLeap (y : Nat) : Bool := y % 4 = 0 && (y % 100 ≠ 0 || y % 400 = 0)

def daysInMonth (y : Nat) (m : Nat) : Nat :=
  match m with
  | 1 => 31
  | 2 => if isLeap y then 29 else 28
  | 3 => 31
  | 4 => 30
  | 5 => 31
  | 6 => 30
  | 7 => 31
  | 8 => 31
  | 9 => 30
  | 10 => 31
  | 11 => 30
  | 12 => 31
  | _ => 0

/-- A calendar date `datetime` accepts: year within `MINYEAR..MAXYEAR`,
month `1..12`, day within the month. -/
def Date.valid (d : Date) : Bool :=
  1 ≤ d.year && d.year ≤ 9999 && 1 ≤ d.month && d.month ≤ 12 &&
    1 ≤ d.day && d.day ≤ daysInMonth d.year d.month

/-- Number of leap years strictly before year `y` (closed form: count of
multiples of 4, minus centuries, plus multiples of 400 below `y`). -/
def leapCount (y : Nat) : Nat := (y + 3) / 4 - (y + 99) / 100 + (y + 399) / 400

def daysInYear (y : Nat) : Nat := 365 + (if isLeap y then 1 else 0)

def daysBeforeYear (y : Nat) : Nat := 365 * y + leapCount y

def daysBeforeMonth (y : Nat) : Nat → Nat
  | 0 => 0
  | 1 => 0
  | m + 1 => daysBeforeMonth y m + daysInMonth y m

/-- Linear day number of a date (proleptic Gregorian); differences of
`dayNumber` are exactly `timedelta.days` between midnight datetimes. -/
def dayNumber (d : Date) : Nat :=
  daysBeforeYear d.year + daysBeforeMonth d.year d.month + (d.day - 1)

/-- Python `datetime` comparison, restricted to midnight datetimes:
lexicographic on (year, month, day). -/
def Date.lt (a b : Date) : Bool :=
  a.year < b.year || (a.year = b.year &&
    (a.month < b.month || (a.month = b.month && a.day < b.day)))

/-- `datetime.replace(year=y)`: keeps month and day, fails (ValueError)
when the resulting combination is not a valid date. -/
def dateReplaceYear (d : Date) (y : Nat) : Except Unit Date :=
  if Date.valid ⟨y, d.month, d.day⟩ then .ok ⟨y, d.month, d.day⟩ else .error ()

/-! ### Birthday parsing and rendering -/

def natFromDigits (cs : Str) : Nat :=
  cs.foldl (fun acc c => acc * 10 + (c.toNat - 48)) 0

/-- Little-endian base-10 digits, by fuel-bounded recursion (so the
kernel can evaluate it); equals `Nat.digits 10` (`digitsRev_eq`). -/
def digitsRev : Nat → Nat → List Nat
  | 0, _ => []
  | _, 0 => []
  | fuel + 1, n + 1 => ((n + 1) % 10) :: digitsRev fuel ((n + 1) / 10)

def natToDigitChars (n : Nat) : Str := ((digitsRev n n).map Nat.digitChar).reverse

/-- Left-pad with `'0'` to width `w` (behaviour of `strftime` zero padding). -/
def padZero (w : Nat) (cs : Str) : Str := List.replicate (w - cs.length) '0' ++ cs

/-- The component checks of `strptime(-, "%Y-%m-%d")` once the string is
split at `-`: CPython's `%Y` requires exactly four digits, `%m` and `%d`
one or two digits, and the constructed date must be a real calendar
date (the regex ranges 1..12 / 1..31 are subsumed by the calendar
check). -/
def birthdayCheck (ys ms ds : Str) : Except Unit Date :=
  if ys.length = 4 && ys.all Char.isDigit &&
      1 ≤ ms.length && ms.length ≤ 2 && ms.all Char.isDigit &&
      1 ≤ ds.length && ds.length ≤ 2 && ds.all Char.isDigit then
    if Date.valid ⟨natFromDigits ys, natFromDigits ms, natFromDigits ds⟩ then
      .ok ⟨natFromDigits ys, natFromDigits ms, natFromDigits ds⟩
    else .error ()
  else .error ()

/-- `fields.Birthday.validate` on a string:
`strptime(value.strip(), "%Y-%m-%d")`. -/
def Birthday.validate (value : Str) : Except Unit Date :=
  match splitChar '-' (pyStrip value) with
  | [ys, ms, ds] => birthdayCheck ys ms ds
  | _ => .error ()

/-- `fields.Birthday.__str__`: `strftime("%Y-%m-%d")`. -/
def Birthday.render (d : Date) : Str :=
  padZero 4 (natToDigitChars d.year) ++ '-' :: padZero 2 (natToDigitChars d.month) ++
    '-' :: padZero 2 (natToDigitChars d.day)

/-! ## record.py -/

structure ContactRecord where
  name : Str
  phones : List Str
  email : Option Str
  address : Option Str
  birthday : Option Date
deriving DecidableEq, Repr

/-- `ContactRecord.add_phone`: validate and append. -/
def ContactRecord.add_phone (r : ContactRecord) (phone : Str) :
    Except Unit ContactRecord :=
  match Phone.validate phone with
  | .error e => .error e
  | .ok v => .ok { r with phones := r.phones ++ [v] }

/-- Replace the first phone equal to `old` with the freshly validated
`new`; the flag reports whether `old` was found.  `Phone(new)` is
evaluated before the list cell is assigned, so a validation failure
leaves the list untouched. -/
def editPhoneList (old newVal : Str) : List Str → Except Unit (List Str × Bool)
  | [] => .ok ([], false)
  | p :: rest =>
    if p = old then do
      let v ← Phone.validate newVal
      .ok (v :: rest, true)
    else do
      let (rest2, found) ← editPhoneList old newVal rest
      .ok (p :: rest2, found)

/-- `ContactRecord.edit_phone`. -/
def ContactRecord.edit_phone (r : ContactRecord) (old newVal : Str) :
    Except Unit (ContactRecord × Bool) := do
  let (ps, found) ← editPhoneList old newVal r.phones
  .ok ({ r with phones := ps }, found)

/-- `ContactRecord.set_email`: `Email(email) if email else None` — `none`
and the empty string clear the field, anything else is validated. -/
def ContactRecord.set_email (r : ContactRecord) (email : Option Str) :
    Except Unit ContactRecord :=
  match email with
  | none => .ok { r with email := none }
  | some s =>
    if s = [] then .ok { r with email := none }
    else
      match Email.validate s with
      | .error e => .error e
      | .ok v => .ok { r with email := some v }

/-- `ContactRecord.set_address`. -/
def ContactRecord.set_address (r : ContactRecord) (address : Option Str) :
    Except Unit ContactRecord :=
  match address with
  | none => .ok { r with address := none }
  | some s =>
    if s = [] then .ok { r with address := none }
    else
      match Address.validate s with
      | .error e => .error e
      | .ok v => .ok { r with address := some v }

/-- `ContactRecord.set_birthday`. -/
def ContactRecord.set_birthday (r : ContactRecord) (birthday : Option Str) :
    Except Unit ContactRecord :=
  match birthday with
  | none => .ok { r with birthday := none }
  | some s =>
    if s = [] then .ok { r with birthday := none }
    else
      match Birthday.validate s with
      | .error e => .error e
      | .ok v => .ok { r with birthday := some v }

/-- The `for phone in phones: self.add_phone(phone)` loop of
`ContactRecord.__init__`. -/
def addPhones (r : ContactRecord) : List Str → Except Unit ContactRecord
  | [] => .ok r
  | p :: ps =>
    match r.add_phone p with
    | .error e => .error e
    | .ok r2 => addPhones r2 ps

/-- `ContactRecord.__init__`: validate name, email, address, birthday,
then append each phone through `add_phone`. -/
def mkContactRecord (name : Str) (phones : List Str) (email address birthday : Option Str) :
    Except Unit ContactRecord :=
  match Name.validate name with
  | .error e => .error e
  | .ok n =>
    let base : ContactRecord := { name := n, phones := [], email := none,
                                  address := none, birthday := none }
    match base.set_email email with
    | .error e => .error e
    | .ok r1 =>
      match r1.set_address address with
      | .error e => .error e
      | .ok r2 =>
        match r2.set_birthday birthday with
        | .error e => .error e
        | .ok r3 => addPhones r3 phones

/-- `ContactRecord.days_to_birthday` with an explicit `today` (both dates
at midnight).  The result is `.ok none` when no birthday is set, and
`.error ()` when `datetime.replace` raises for a nonexistent date. -/
def days_to_birthday (birthday : Option Date) (today : Date) :
    Except Unit (Option Int) :=
  match birthday with
  | none => .ok none
  | some bd =>
    match dateReplaceYear bd today.year with
    | .error e => .error e
    | .ok bd1 =>
      match (if Date.lt bd1 today then dateReplaceYear bd1 (today.year + 1)
             else .ok bd1) with
      | .error e => .error e
      | .ok bd2 => .ok (some ((dayNumber bd2 : Int) - (dayNumber today : Int)))

/-! ### Serialization (`to_dict` / `from_dict`) -/

structure SerializedContact where
  name : Str
  phones : List Str
  email : Option Str
  address : Option Str
  birthday : Option Str
deriving DecidableEq, Repr

/-- `ContactRecord.to_dict`. -/
def ContactRecord.to_dict (r : ContactRecord) : SerializedContact :=
  { name := r.name, phones := r.phones, email := r.email,
    address := r.address, birthday := r.birthday.map Birthday.render }

/-- `ContactRecord.from_dict`: rebuild through the validating constructor. -/
def ContactRecord.from_dict (d : SerializedContact) : Except Unit ContactRecord :=
  mkContactRecord d.name d.phones d.email d.address d.birthday

/-! ## address_book.py

An `AddressBook` is a Python dict from lowercase name to record; we model
it as an association list in insertion order.  Assigning to an existing
key keeps its position, assigning a fresh key appends. -/

abbrev AddressBook := List (Str × ContactRecord)

/-- Python `dict.__setitem__`. -/
def dictSet (l : List (Str × ContactRecord)) (k : Str) (v : ContactRecord) :
    List (Str × ContactRecord) :=
  match l with
  | [] => [(k, v)]
  | (k2, v2) :: rest =>
    if k2 = k then (k, v) :: rest else (k2, v2) :: dictSet rest k v

/-- First-match association lookup (Python `dict.get`). -/
def dictGet (l : List (Str × ContactRecord)) (k : Str) : Option ContactRecord :=
  match l with
  | [] => none
  | (k2, v2) :: rest => if k2 = k then some v2 else dictGet rest k

/-- `AddressBook.add_record`: key is the lowercased name. -/
def AddressBook.add_record (b : AddressBook) (r : ContactRecord) : AddressBook :=
  dictSet b (pyLower r.name) r

/-- `AddressBook.get`: case-insensitive lookup. -/
def AddressBook.get (b : AddressBook) (name : Str) : Option ContactRecord :=
  dictGet b (pyLower name)

/-- `AddressBook.to_serializable`. -/
def AddressBook.to_serializable (b : AddressBook) : List SerializedContact :=
  b.map (fun e => e.2.to_dict)

/-- The `for entry in data: book.add_record(...)` loop of
`AddressBook.from_serializable`; a `ValidationError` in any record
propagates. -/
def fromSerAux (book : AddressBook) : List SerializedContact → Except Unit AddressBook
  | [] => .ok book
  | e :: rest =>
    match ContactRecord.from_dict e with
    | .error err => .error err
    | .ok r => fromSerAux (book.add_record r) rest

/-- `AddressBook.from_serializable`. -/
def AddressBook.from_serializable (data : List SerializedContact) :
    Except Unit AddressBook :=
  fromSerAux [] data

/-! ## commands.py — the `edit contact` update loop -/

/-- Messages `edit_contact` collects (content abstracted to constructors). -/
inductive EditMsg
  | updatedPhone (old newVal : Str)
  | phoneNotFound (old : Str)
  | addedPhone (v : Str)
  | emailUpdated
  | addressUpdated
  | birthdayUpdated
  | ignored (key : Str)
deriving DecidableEq, Repr

/-- One iteration of the `for key, value in updates.items()` body of
`edit_contact`.  An `.error` means a `ValidationError` was raised during
this iteration; since every field operation validates before assigning,
the record is unchanged at the moment the exception propagates. -/
def applyUpdate (r : ContactRecord) (key value : Str) :
    Except Unit (ContactRecord × EditMsg) :=
  if ("phone").data.isPrefixOf key then
    match splitFirst ':' value with
    | some (old, newVal) => do
      let (r2, found) ← r.edit_phone old newVal
      if found then .ok (r2, .updatedPhone old newVal)
      else .ok (r2, .phoneNotFound old)
    | none => do
      let r2 ← r.add_phone value
      .ok (r2, .addedPhone value)
  else if key = ("email").data then do
    let r2 ← r.set_email (if value = [] then none else some value)
    .ok (r2, .emailUpdated)
  else if key = ("address").data then do
    let r2 ← r.set_address (if value = [] then none else some value)
    .ok (r2, .addressUpdated)
  else if key = ("birthday").data then do
    let r2 ← r.set_birthday (if value = [] then none else some value)
    .ok (r2, .birthdayUpdated)
  else .ok (r, .ignored key)

/-- The whole update loop of `edit_contact`.  The record is mutated in
place in Python, so when a `ValidationError` escapes, the caller's record
is the state reached so far: the `.error` payload carries it. -/
def applyUpdates (r : ContactRecord) :
    List (Str × Str) → Except ContactRecord (ContactRecord × List EditMsg)
  | [] => .ok (r, [])
  | (key, value) :: rest =>
    match applyUpdate r key value with
    | .error () => .error r
    | .ok (r2, msg) =>
      match applyUpdates r2 rest with
      | .error r3 => .error r3
      | .ok (r3, msgs) => .ok (r3, msg :: msgs)

/-! ## Stable sorting

Python's `sorted` is a stable sort driven by `<` on the keys; we embed it
as a stable insertion sort: `x` is inserted before the first element `y`
with `le x y`, so earlier elements stay first among equals. -/

def insertLe {α : Type} (le : α → α → Bool) (x : α) : List α → List α
  | [] => [x]
  | y :: ys => if le x y then x :: y :: ys else y :: insertLe le x ys

def sortLe {α : Type} (le : α → α → Bool) (l : List α) : List α :=
  l.foldr (insertLe le) []

/-! ## notes.py -/

structure Note where
  title : Str
  content : Str
  tags : List Str
deriving DecidableEq, Repr

/-- Python `<` on characters (code-point comparison). -/
def charLt (a b : Char) : Bool := decide (a < b)

/-- Python `<` on lists, generic in the element comparison: lexicographic,
a strict prefix is smaller. -/
def listLtBy {α : Type} [DecidableEq α] (lt : α → α → Bool) : List α → List α → Bool
  | _, [] => false
  | [], _ :: _ => true
  | a :: as, b :: bs => lt a b || (a = b && listLtBy lt as bs)

/-- Python `<` on strings. -/
def strLt : Str → Str → Bool := listLtBy charLt

/-- Python `<` on lists of strings. -/
def strListLt : List Str → List Str → Bool := listLtBy strLt

/-- Python `sorted` on strings (stable; `le a b = ¬ b < a`). -/
def sortStrs (l : List Str) : List Str := sortLe (fun a b => !strLt b a) l

/-- The key function of `Notebook.sorted_by_tags`:
`(sorted(note.tags) or [""], note.title.lower())`. -/
def noteSortKey (n : Note) : List Str × Str :=
  let tl := sortStrs n.tags
  (if tl = [] then [[]] else tl, pyLower n.title)

/-- Python `<` on the sort keys (pair comparison: first component, then
second). -/
def noteKeyLt (x y : List Str × Str) : Bool :=
  strListLt x.1 y.1 || (x.1 = y.1 && strLt x.2 y.2)

/-- A `Notebook` is a dict from lowercase title to note. -/
abbrev Notebook := List (Str × Note)

/-- `Notebook.sorted_by_tags`: the notes sorted by `noteSortKey`. -/
def Notebook.sorted_by_tags (nb : Notebook) : List Note :=
  sortLe (fun a b => !noteKeyLt (noteSortKey b) (noteSortKey a))
    (nb.map (fun e => e.2))

/-! ## cli.py / commands.py — the dispatcher -/

/-- Tags standing for the handler functions of `build_command_map`. -/
inductive CommandTag
  | addContact | listContacts | showContact | editContact | deleteContact
  | searchContacts | upcomingBirthdays
  | addNote | listNotes | showNote | editNote | deleteNote | searchNotes
  | searchNotesByTag | sortNotesByTags
  | exitCmd
deriving DecidableEq, Repr

/-- `commands.build_command_map`, in source order: command name, handler,
usage description. -/
def build_command_map : List (Str × CommandTag × Str) :=
  [ (("add contact").data, .addContact,
      ("add contact John phone=+123 email=john@example.com").data),
    (("list contacts").data, .listContacts, ("List all contacts.").data),
    (("show contact").data, .showContact, ("show contact John").data),
    (("edit contact").data, .editContact,
      ("edit contact John phone=old:new email=new@example.com").data),
    (("delete contact").data, .deleteContact, ("delete contact John").data),
    (("search contacts").data, .searchContacts, ("search contacts John").data),
    (("upcoming birthdays").data, .upcomingBirthdays, ("upcoming birthdays 7").data),
    (("add note").data, .addNote,
      ("add note \"Meeting Notes\" content=\"Discuss roadmap\" tags=work,planning").data),
    (("list notes").data, .listNotes, ("List all notes.").data),
    (("show note").data, .showNote, ("show note \"Meeting Notes\"").data),
    (("edit note").data, .editNote,
      ("edit note \"Meeting Notes\" content=\"Updated\" add_tags=urgent").data),
    (("delete note").data, .deleteNote, ("delete note \"Meeting Notes\"").data),
    (("search notes").data, .searchNotes, ("search notes roadmap").data),
    (("search notes by tag").data, .searchNotesByTag, ("search notes by tag work").data),
    (("sort notes by tags").data, .sortNotesByTags, ("sort notes by tags").data),
    (("exit").data, .exitCmd, ("Exit the assistant.").data),
    (("quit").data, .exitCmd, ("Exit the assistant.").data) ]

/-- The registered command names, in registration order. -/
def registryNames : List Str := build_command_map.map (fun e => e.1)

/-- `sorted(self.command_map.keys(), key=len, reverse=True)`. -/
def sortByLenDesc (names : List Str) : List Str :=
  sortLe (fun a b => decide (b.length ≤ a.length)) names

/-- `self.command_map[command_name]`. -/
def lookupCmd (m : List (Str × CommandTag × Str)) (name : Str) :
    Option (CommandTag × Str) :=
  match m with
  | [] => none
  | (k, v) :: rest => if k = name then some v else lookupCmd rest name

/-- The first command name in `names` (already length-sorted) that is a
prefix of `lowered`. -/
def firstPrefixMatch (names : List Str) (lowered : Str) : Option Str :=
  match names with
  | [] => none
  | n :: rest => if n.isPrefixOf lowered then some n else firstPrefixMatch rest lowered

/-- `CommandRegistry.resolve`: trim the input, lowercase a copy for
matching, walk the names longest first, and return the matched name, the
handler, its description and the trimmed remainder of the original-case
input.  `none` models the `KeyError`. -/
def resolve (m : List (Str × CommandTag × Str)) (userInput : Str) :
    Option (Str × CommandTag × Str × Str) :=
  match firstPrefixMatch (sortByLenDesc (m.map (fun e => e.1)))
      (pyLower (pyStrip userInput)) with
  | none => none
  | some name =>
    match lookupCmd m name with
    | none => none
    | some (tag, description) =>
      some (name, tag, description, pyStrip ((pyStrip userInput).drop name.length))

/-! ## difflib (used by `commands.suggest_command`)

`difflib.get_close_matches(word, names, n=1, cutoff=0.5)` with
`SequenceMatcher(None, name, word)`: `a` is the candidate name, `b` the
user input. Ratios are exact rationals; the float arithmetic of the
source cannot cross the 0.5 cutoff differently because the ratios have
small denominators. -/

/-- Ascending list of the indices at which `c` occurs in `b`. -/
def indicesOf (b : Str) (c : Char) : List Nat :=
  (List.range b.length).filter (fun i => b.getD i ' ' = c)

/-- `SequenceMatcher.__chain_b` with `isjunk=None`, `autojunk=True`: `b2j`
maps a character to its indices in `b`; when `len(b) >= 200`, characters
occurring more than `len(b)//100 + 1` times are dropped as popular. -/
def mkB2j (b : Str) (c : Char) : List Nat :=
  if 200 ≤ b.length && b.length / 100 + 1 < b.count c then [] else indicesOf b c

structure FlmState where
  j2len : Nat → Nat
  besti : Nat
  bestj : Nat
  bestsize : Nat

/-- The dynamic-programming loop of `find_longest_match`: for each `i`,
for each index `j` of `a[i]` in `b` within the window, the length of the
common run ending at `(i, j)`; the best run is kept (strict improvement
only, so the earliest maximal run wins). The `j = 0` guard mirrors the
Python lookup of key `-1`, which is never present. -/
def flmLoop (a _b : Str) (b2j : Char → List Nat) (alo ahi blo bhi : Nat) :
    Nat × Nat × Nat :=
  let step : FlmState → Nat → FlmState := fun st i =>
    let js := (b2j (a.getD i ' ')).filter (fun j => blo ≤ j && j < bhi)
    js.foldl (fun st2 j =>
        let k := (if j = 0 then 0 else st.j2len (j - 1)) + 1
        { j2len := fun x => if x = j then k else st2.j2len x,
          besti := if st2.bestsize < k then i + 1 - k else st2.besti,
          bestj := if st2.bestsize < k then j + 1 - k else st2.bestj,
          bestsize := if st2.bestsize < k then k else st2.bestsize })
      { st with j2len := fun _ => 0 }
  let final := (List.range' alo (ahi - alo)).foldl step ⟨fun _ => 0, alo, blo, 0⟩
  (final.besti, final.bestj, final.bestsize)

/-- The left extension loop of `find_longest_match` (the junk set is
empty, so the junk variants are no-ops).  Fuel bounds the recursion; each
step decreases `besti`, so `besti` steps always suffice. -/
def extLeft (a b : Str) (alo blo : Nat) : Nat → Nat × Nat × Nat → Nat × Nat × Nat
  | 0, st => st
  | fuel + 1, (besti, bestj, bestsize) =>
    if alo < besti && blo < bestj then
      match a.get? (besti - 1), b.get? (bestj - 1) with
      | some x, some y =>
        if x = y then extLeft a b alo blo fuel (besti - 1, bestj - 1, bestsize + 1)
        else (besti, bestj, bestsize)
      | _, _ => (besti, bestj, bestsize)
    else (besti, bestj, bestsize)

/-- The right extension loop of `find_longest_match`. -/
def extRight (a b : Str) (ahi bhi : Nat) : Nat → Nat × Nat × Nat → Nat × Nat × Nat
  | 0, st => st
  | fuel + 1, (besti, bestj, bestsize) =>
    if besti + bestsize < ahi && bestj + bestsize < bhi then
      match a.get? (besti + bestsize), b.get? (bestj + bestsize) with
      | some x, some y =>
        if x = y then extRight a b ahi bhi fuel (besti, bestj, bestsize + 1)
        else (besti, bestj, bestsize)
      | _, _ => (besti, bestj, bestsize)
    else (besti, bestj, bestsize)

/-- `SequenceMatcher.find_longest_match` on the window
`a[alo:ahi]`, `b[blo:bhi]`. -/
def findLongestMatch (a b : Str) (b2j : Char → List Nat) (alo ahi blo bhi : Nat) :
    Nat × Nat × Nat :=
  extRight a b ahi bhi (a.length + b.length + 1)
    (extLeft a b alo blo (a.length + 1) (flmLoop a b b2j alo ahi blo bhi))

/-- Total size of the matching blocks (`get_matching_blocks` recursion:
longest match, then the regions to its left and right).  The fuel bounds
the recursion depth; every recursive window is strictly shorter, so
`a.length + 1` always suffices. -/
def matchSum (a b : Str) (b2j : Char → List Nat) :
    Nat → Nat → Nat → Nat → Nat → Nat
  | 0, _, _, _, _ => 0
  | fuel + 1, alo, ahi, blo, bhi =>
    match findLongestMatch a b b2j alo ahi blo bhi with
    | (i, j, k) =>
      if k = 0 then 0
      else
        k + (if alo < i && blo < j then matchSum a b b2j fuel alo i blo j else 0)
          + (if i + k < ahi && j + k < bhi then
              matchSum a b b2j fuel (i + k) ahi (j + k) bhi else 0)

/-- Number of matched elements used by `SequenceMatcher.ratio`. -/
def totalMatched (a b : Str) : Nat :=
  matchSum a b (mkB2j b) (a.length + 1) 0 a.length 0 b.length

/-- `SequenceMatcher.ratio()`: `2*M / (len(a)+len(b))`. -/
def ratioOf (a b : Str) : ℚ :=
  mkRat (2 * (totalMatched a b : Int)) (a.length + b.length)

/-- Matched count of `quick_ratio`: per character, the smaller number of
occurrences in `a` and in `b`. -/
def quickMatched (a b : Str) : Nat :=
  a.dedup.foldl (fun acc c => acc + min (a.count c) (b.count c)) 0

/-- `SequenceMatcher.quick_ratio()`. -/
def quickRatioOf (a b : Str) : ℚ :=
  mkRat (2 * (quickMatched a b : Int)) (a.length + b.length)

/-- `SequenceMatcher.real_quick_ratio()`. -/
def realQuickRatioOf (a b : Str) : ℚ :=
  mkRat (2 * ((min a.length b.length : Nat) : Int)) (a.length + b.length)

/-- The cutoff chain of `get_close_matches` for `cutoff=0.5`. -/
def cutoffOk (nm word : Str) : Bool :=
  decide (mkRat 1 2 ≤ realQuickRatioOf nm word) &&
    decide (mkRat 1 2 ≤ quickRatioOf nm word) &&
    decide (mkRat 1 2 ≤ ratioOf nm word)

/-- `get_close_matches(word, names, n=1, cutoff=0.5)` reduced to its single
result: `heapq.nlargest(1, ...)` on `(ratio, name)` pairs returns the
maximum under tuple comparison (ratio first, then the name as a Python
string; distinct names never tie). -/
def get_close_matches_top (word : Str) (names : List Str) : Option Str :=
  (names.filter (fun nm => cutoffOk nm word)).foldl
    (fun best nm =>
      match best with
      | none => some nm
      | some b =>
        if ratioOf b word < ratioOf nm word ∨
            (ratioOf b word = ratioOf nm word ∧ strLt b nm = true) then some nm
        else some b)
    none

/-- The truncation loop of `suggest_command`:
`for word_count in range(start, 0, -1)` try the first `word_count` words. -/
def tryCounts (words : List Str) (names : List Str) : Nat → Option Str
  | 0 => none
  | wc + 1 =>
    match get_close_matches_top (joinSpace (words.take (wc + 1))) names with
    | some m => some m
    | none => tryCounts words names wc

/-- `commands.suggest_command`. -/
def suggest_command (userInput : Str) (m : List (Str × CommandTag × Str)) :
    Option Str :=
  if userInput = [] then none
  else
    match get_close_matches_top userInput (m.map (fun e => e.1)) with
    | some mt => some mt
    | none =>
      if 2 ≤ (pySplit userInput).length then
        tryCounts (pySplit userInput) (m.map (fun e => e.1))
          (min 4 (pySplit userInput).length)
      else none

/-- The suggestion flow as the spec words it (§4.5 step 4): compare the
full input against all command names with cutoff 0.5 taking the top-1
result; if none, truncate the input to its first 1–4 whitespace-separated
words, longest truncation first, and repeat; first match wins, else no
suggestion. -/
def suggestionSpec (userInput : Str) (names : List Str) : Option Str :=
  match get_close_matches_top userInput names with
  | some mt => some mt
  | none => tryCounts (pySplit userInput) names 4

/-! # Theorems -/

/-! ## C7 — phone validation -/

/-- The spec's reading of `^\+?\d{7,15}$`: the string is 7–15 digits,
optionally preceded by one `+`. -/
def PhoneSpec (t : Str) : Prop :=
  ∃ ds : Str, (t = ds ∨ t = '+' :: ds) ∧ (∀ c ∈ ds, c.isDigit = true) ∧
    7 ≤ ds.length ∧ ds.length ≤ 15

theorem phonePattern_plus (rest : Str) :
    phonePattern ('+' :: rest) =
      (rest.all Char.isDigit && decide (7 ≤ rest.length) && decide (rest.length ≤ 15)) := by
  simp [phonePattern]

theorem phonePattern_other (c : Char) (rest : Str) (hc : c ≠ '+') :
    phonePattern (c :: rest) =
      ((c :: rest).all Char.isDigit && decide (7 ≤ (c :: rest).length) &&
        decide ((c :: rest).length ≤ 15)) := by
  simp [phonePattern, hc]

theorem phonePattern_iff (t : Str) : phonePattern t = true ↔ PhoneSpec t := by
  rcases t with _ | ⟨c, rest⟩
  · constructor
    · intro h
      simp [phonePattern] at h
    · rintro ⟨ds, hds, hall, h7, h15⟩
      rcases hds with hds | hds
      · rw [← hds] at h7; simp at h7
      · exact absurd hds (by simp)
  · by_cases hc : c = '+'
    · subst hc
      rw [phonePattern_plus]
      simp only [Bool.and_eq_true, decide_eq_true_eq, List.all_eq_true]
      constructor
      · rintro ⟨⟨hall, h7⟩, h15⟩
        exact ⟨rest, Or.inr rfl, hall, h7, h15⟩
      · rintro ⟨ds, hds, hall, h7, h15⟩
        rcases hds with hds | hds
        · have hplus : ('+' : Char) ∈ ds := by rw [← hds]; simp
          have : ('+' : Char).isDigit = true := hall '+' hplus
          simp at this
        · have hrd : rest = ds := by injection hds
          subst hrd
          exact ⟨⟨hall, h7⟩, h15⟩
    · rw [phonePattern_other c rest hc]
      simp only [Bool.and_eq_true, decide_eq_true_eq, List.all_eq_true]
      constructor
      · rintro ⟨⟨hall, h7⟩, h15⟩
        exact ⟨c :: rest, Or.inl rfl, hall, h7, h15⟩
      · rintro ⟨ds, hds, hall, h7, h15⟩
        rcases hds with hds | hds
        · subst hds
          exact ⟨⟨hall, h7⟩, h15⟩
        · have : c = '+' := by injection hds
          exact absurd this hc

theorem phoneValidate_isOk (s : Str) :
    (∃ v, Phone.validate s = .ok v) ↔ phonePattern (removeSpaces (pyStrip s)) = true := by
  unfold Phone.validate
  by_cases h : phonePattern (removeSpaces (pyStrip s)) = true <;> simp [h]

/-- C7: phone validation succeeds exactly when the trimmed, space-stripped
input consists of 7–15 digits with an optional leading `+`; in particular
`"+380501234567"` and `"1234567"` are accepted while `"123"` and
`"12a4567"` are rejected. -/
theorem C7_phone_validation :
    (∀ s : Str, (∃ v, Phone.validate s = .ok v) ↔ PhoneSpec (removeSpaces (pyStrip s))) ∧
    Phone.validate ("+380501234567").data = .ok (("+380501234567").data) ∧
    Phone.validate ("1234567").data = .ok (("1234567").data) ∧
    Phone.validate ("123").data = .error () ∧
    Phone.validate ("12a4567").data = .error () := by
  refine ⟨fun s => (phoneValidate_isOk s).trans (phonePattern_iff _), ?_, ?_, ?_, ?_⟩
  · decide
  · decide
  · decide
  · decide

/-- Witness: the universally quantified part of C7 applied at the concrete
input `" 12 34567 "` (trims and de-spaces to 7 digits, hence valid). -/
theorem C7_phone_validation_witness :
    (∃ v, Phone.validate (" 12 34567 ").data = .ok v) :=
  (C7_phone_validation.1 ((" 12 34567 ").data)).mpr
    ⟨("1234567").data, Or.inl (by decide), by decide, by decide, by decide⟩

/-! ## C6 — address book add/get: case-insensitive, overwrite-on-add -/

theorem dictGet_dictSet_self (b : List (Str × ContactRecord)) (k : Str) (v : ContactRecord) :
    dictGet (dictSet b k v) k = some v := by
  induction b with
  | nil => simp [dictSet, dictGet]
  | cons e rest ih =>
    rcases e with ⟨k2, v2⟩
    by_cases h : k2 = k
    · simp [dictSet, h, dictGet]
    · simp [dictSet, h, dictGet, ih]

theorem mem_keys_dictSet (b : List (Str × ContactRecord)) (k : Str) (v : ContactRecord) :
    ∃ w, (k, w) ∈ dictSet b k v := by
  induction b with
  | nil => exact ⟨v, by simp [dictSet]⟩
  | cons e rest ih =>
    rcases e with ⟨k2, v2⟩
    by_cases h : k2 = k
    · exact ⟨v, by simp [dictSet, h]⟩
    · rcases ih with ⟨w, hw⟩
      exact ⟨w, by simp [dictSet, h, hw]⟩

theorem length_dictSet_mem (b : List (Str × ContactRecord)) (k : Str) (v : ContactRecord)
    (h : ∃ w, (k, w) ∈ b) : (dictSet b k v).length = b.length := by
  induction b with
  | nil => simp at h
  | cons e rest ih =>
    rcases e with ⟨k2, v2⟩
    by_cases hk : k2 = k
    · simp [dictSet, hk]
    · rcases h with ⟨w, hw⟩
      simp at hw
      rcases hw with ⟨hk2, _⟩ | hw
      · exact absurd hk2.symm hk
      · simp [dictSet, hk, ih ⟨w, hw⟩]

/-- C6: after `add_record r`, `get k` returns `r` for every `k` whose
lowercase form equals the lowercase of `r`'s name; adding a second record
whose name differs only in case overwrites without growing the book, and
lookups then return the second record. -/
theorem C6_addressbook_case_insensitive :
    (∀ (b : AddressBook) (r : ContactRecord) (k : Str),
      pyLower k = pyLower r.name → (b.add_record r).get k = some r) ∧
    (∀ (b : AddressBook) (r1 r2 : ContactRecord),
      pyLower r1.name = pyLower r2.name →
        ((b.add_record r1).add_record r2).length = (b.add_record r1).length ∧
        ∀ k : Str, pyLower k = pyLower r1.name →
          ((b.add_record r1).add_record r2).get k = some r2) := by
  constructor
  · intro b r k hk
    unfold AddressBook.get AddressBook.add_record
    rw [hk]
    exact dictGet_dictSet_self b (pyLower r.name) r
  · intro b r1 r2 hnames
    constructor
    · unfold AddressBook.add_record
      rw [← hnames]
      exact length_dictSet_mem _ _ _ (mem_keys_dictSet b (pyLower r1.name) r1)
    · intro k hk
      unfold AddressBook.get AddressBook.add_record
      rw [hk, hnames]
      exact dictGet_dictSet_self _ _ _

/-- Witness: C6 at the spec's example — add `"John"`, `get "john"` returns
the record; re-adding under `"JOHN"` overwrites without duplicating. -/
theorem C6_addressbook_case_insensitive_witness :
    (AddressBook.add_record [] ⟨("John").data, [("1234567").data], none, none, none⟩).get
      (("john").data) = some ⟨("John").data, [("1234567").data], none, none, none⟩ ∧
    ((AddressBook.add_record [] ⟨("John").data, [("1234567").data], none, none, none⟩).add_record
        ⟨("JOHN").data, [], none, none, none⟩).length =
      (AddressBook.add_record [] ⟨("John").data, [("1234567").data], none, none, none⟩).length :=
  ⟨C6_addressbook_case_insensitive.1 [] ⟨("John").data, [("1234567").data], none, none, none⟩
      (("john").data) (by decide),
   (C6_addressbook_case_insensitive.2 [] ⟨("John").data, [("1234567").data], none, none, none⟩
      ⟨("JOHN").data, [], none, none, none⟩ (by decide)).1⟩

/-! ## Generic facts about the stable sort -/

theorem insertLe_perm {α : Type} (le : α → α → Bool) (x : α) (l : List α) :
    (insertLe le x l).Perm (x :: l) := by
  induction l with
  | nil => simp [insertLe]
  | cons y ys ih =>
    unfold insertLe
    by_cases h : le x y = true
    · rw [if_pos h]
    · rw [if_neg h]
      exact (List.Perm.cons y ih).trans (List.Perm.swap x y ys)

theorem sortLe_perm {α : Type} (le : α → α → Bool) (l : List α) :
    (sortLe le l).Perm l := by
  induction l with
  | nil => simp [sortLe]
  | cons x xs ih =>
    have h1 : sortLe le (x :: xs) = insertLe le x (sortLe le xs) := rfl
    rw [h1]
    exact (insertLe_perm le x (sortLe le xs)).trans (List.Perm.cons x ih)

theorem mem_insertLe {α : Type} (le : α → α → Bool) (x z : α) (l : List α)
    (h : z ∈ insertLe le x l) : z = x ∨ z ∈ l := by
  have := (insertLe_perm le x l).mem_iff.mp h
  simpa using this

theorem insertLe_pairwise {α : Type} (le : α → α → Bool)
    (htr : ∀ a b c, le a b = true → le b c = true → le a c = true)
    (hto : ∀ a b, le a b = true ∨ le b a = true) (x : α) (l : List α)
    (h : List.Pairwise (fun a b => le a b = true) l) :
    List.Pairwise (fun a b => le a b = true) (insertLe le x l) := by
  induction l with
  | nil => simp [insertLe]
  | cons y ys ih =>
    rcases List.pairwise_cons.mp h with ⟨hy, hys⟩
    unfold insertLe
    by_cases hxy : le x y = true
    · rw [if_pos hxy]
      refine List.pairwise_cons.mpr ⟨?_, h⟩
      intro z hz
      rcases List.mem_cons.mp hz with rfl | hz
      · exact hxy
      · exact htr x y z hxy (hy z hz)
    · rw [if_neg hxy]
      refine List.pairwise_cons.mpr ⟨?_, ih hys⟩
      intro z hz
      rcases mem_insertLe le x z ys hz with h2 | hz
      · rw [h2]
        rcases hto x y with hc | hc
        · exact absurd hc hxy
        · exact hc
      · exact hy z hz

theorem sortLe_pairwise {α : Type} (le : α → α → Bool)
    (htr : ∀ a b c, le a b = true → le b c = true → le a c = true)
    (hto : ∀ a b, le a b = true ∨ le b a = true) (l : List α) :
    List.Pairwise (fun a b => le a b = true) (sortLe le l) := by
  induction l with
  | nil => simp [sortLe]
  | cons x xs ih => exact insertLe_pairwise le htr hto x (sortLe le xs) ih

/-! ## Dispatcher lemmas (C2, C10) -/

theorem sortByLenDesc_perm (names : List Str) : (sortByLenDesc names).Perm names :=
  sortLe_perm _ names

theorem sortByLenDesc_pairwise (names : List Str) :
    List.Pairwise (fun a b => b.length ≤ a.length) (sortByLenDesc names) := by
  have h := sortLe_pairwise (fun a b : Str => decide (b.length ≤ a.length))
    (fun a b c hab hbc => by
      simp only [decide_eq_true_eq] at hab hbc ⊢
      omega)
    (fun a b => by
      by_cases h : b.length ≤ a.length
      · exact Or.inl (by simpa using h)
      · exact Or.inr (by simp; omega))
    names
  exact h.imp (fun hab => by simpa using hab)

theorem firstPrefixMatch_some (ns : List Str) (s n : Str)
    (h : firstPrefixMatch ns s = some n) :
    n ∈ ns ∧ n.isPrefixOf s = true := by
  induction ns with
  | nil => simp [firstPrefixMatch] at h
  | cons m rest ih =>
    unfold firstPrefixMatch at h
    by_cases hm : m.isPrefixOf s = true
    · simp [hm] at h
      subst h
      exact ⟨by simp, hm⟩
    · simp [hm] at h
      rcases ih h with ⟨h1, h2⟩
      exact ⟨by simp [h1], h2⟩

theorem firstPrefixMatch_longest (ns : List Str) (s n : Str)
    (hsorted : List.Pairwise (fun a b => b.length ≤ a.length) ns)
    (h : firstPrefixMatch ns s = some n) :
    ∀ m ∈ ns, m.isPrefixOf s = true → m.length ≤ n.length := by
  induction ns with
  | nil => simp [firstPrefixMatch] at h
  | cons m0 rest ih =>
    rcases List.pairwise_cons.mp hsorted with ⟨hm0, hrest⟩
    unfold firstPrefixMatch at h
    by_cases hm : m0.isPrefixOf s = true
    · simp [hm] at h
      subst h
      intro m hmem _
      rcases List.mem_cons.mp hmem with rfl | hmem
      · exact Nat.le_refl _
      · exact hm0 m hmem
    · simp [hm] at h
      intro m hmem hpre
      rcases List.mem_cons.mp hmem with rfl | hmem
      · exact absurd hpre hm
      · exact ih hrest h m hmem hpre

theorem firstPrefixMatch_isSome (ns : List Str) (s : Str)
    (h : ∃ n ∈ ns, n.isPrefixOf s = true) :
    ∃ n, firstPrefixMatch ns s = some n := by
  induction ns with
  | nil => simp at h
  | cons m rest ih =>
    unfold firstPrefixMatch
    by_cases hm : m.isPrefixOf s = true
    · exact ⟨m, by simp [hm]⟩
    · rcases h with ⟨n, hn, hpre⟩
      rcases List.mem_cons.mp hn with rfl | hn
      · exact absurd hpre hm
      · rcases ih ⟨n, hn, hpre⟩ with ⟨n2, hn2⟩
        exact ⟨n2, by simp [hm, hn2]⟩

theorem lookupCmd_mem (m : List (Str × CommandTag × Str)) (n : Str)
    (h : n ∈ m.map (fun e => e.1)) : ∃ v, lookupCmd m n = some v := by
  induction m with
  | nil => simp at h
  | cons e rest ih =>
    unfold lookupCmd
    by_cases he : e.1 = n
    · exact ⟨e.2, by rw [if_pos he]⟩
    · rw [List.map_cons] at h
      rcases List.mem_cons.mp h with h | h
      · exact absurd h.symm he
      · rcases ih h with ⟨v, hv⟩
        exact ⟨v, by rw [if_neg he]; exact hv⟩

set_option maxHeartbeats 1600000 in
theorem resolve_some_properties (input name : Str) (tag : CommandTag) (d args : Str)
    (h : resolve build_command_map input = some (name, tag, d, args)) :
    name ∈ registryNames ∧
    name.isPrefixOf (pyLower (pyStrip input)) = true ∧
    (∀ n ∈ registryNames, n.isPrefixOf (pyLower (pyStrip input)) = true →
      n.length ≤ name.length) ∧
    args = pyStrip ((pyStrip input).drop name.length) := by
  unfold resolve at h
  unfold registryNames
  split at h
  · simp at h
  · rename_i n0 hfp
    split at h
    · simp at h
    · rename_i tag0 desc0 hlk
      simp only [Option.some.injEq, Prod.mk.injEq] at h
      rcases h with ⟨h1, _, _, h4⟩
      rw [h1] at hfp h4
      rcases firstPrefixMatch_some _ _ _ hfp with ⟨hmem, hpre⟩
      have hp : (sortByLenDesc (build_command_map.map (fun e => e.1))).Perm
          (build_command_map.map (fun e => e.1)) := sortByLenDesc_perm _
      have hmem2 : name ∈ build_command_map.map (fun e => e.1) := hp.mem_iff.mp hmem
      refine ⟨hmem2, hpre, ?_, h4.symm⟩
      intro n hn hnpre
      have hn2 : n ∈ sortByLenDesc (build_command_map.map (fun e => e.1)) :=
        hp.mem_iff.mpr hn
      have hsort : List.Pairwise (fun a b : Str => b.length ≤ a.length)
          (sortByLenDesc (build_command_map.map (fun e => e.1))) :=
        sortByLenDesc_pairwise _
      exact firstPrefixMatch_longest _ _ _ hsort hfp n hn2 hnpre

set_option maxHeartbeats 1600000 in
theorem resolve_success (input : Str)
    (h : ∃ n ∈ registryNames, n.isPrefixOf (pyLower (pyStrip input)) = true) :
    (resolve build_command_map input).isSome = true := by
  unfold resolve
  unfold registryNames at h
  rcases h with ⟨n, hn, hpre⟩
  have hp : (sortByLenDesc (build_command_map.map (fun e => e.1))).Perm
      (build_command_map.map (fun e => e.1)) := sortByLenDesc_perm _
  have hn2 : n ∈ sortByLenDesc (build_command_map.map (fun e => e.1)) :=
    hp.mem_iff.mpr hn
  rcases firstPrefixMatch_isSome _ _ ⟨n, hn2, hpre⟩ with ⟨n0, hn0⟩
  rw [hn0]
  rcases firstPrefixMatch_some _ _ _ hn0 with ⟨hmem, _⟩
  have hmem2 : n0 ∈ build_command_map.map (fun e => e.1) := hp.mem_iff.mp hmem
  rcases lookupCmd_mem build_command_map n0 hmem2 with ⟨v, hv⟩
  rcases v with ⟨tag0, desc0⟩
  simp [hv]

/-- C2: the dispatcher resolves an input to the registered command whose
name is the longest prefix of the lowercased trimmed input, passing the
trimmed remainder of the original input as argument; concretely,
`"search notes by tag work"` resolves to `"search notes by tag"` with
argument `"work"` even though `"search notes"` also matches. -/
theorem C2_dispatcher_longest_prefix :
    (∀ (input name : Str) (tag : CommandTag) (d args : Str),
      resolve build_command_map input = some (name, tag, d, args) →
        name ∈ registryNames ∧
        name.isPrefixOf (pyLower (pyStrip input)) = true ∧
        (∀ n ∈ registryNames, n.isPrefixOf (pyLower (pyStrip input)) = true →
          n.length ≤ name.length) ∧
        args = pyStrip ((pyStrip input).drop name.length)) ∧
    (∀ input : Str,
      (∃ n ∈ registryNames, n.isPrefixOf (pyLower (pyStrip input)) = true) →
      (resolve build_command_map input).isSome = true) ∧
    resolve build_command_map (("search notes by tag work").data) =
      some ((("search notes by tag").data : Str), CommandTag.searchNotesByTag,
        (("search notes by tag work").data : Str), (("work").data : Str)) ∧
    (("search notes").data : Str) ∈ registryNames ∧
    (("search notes").data : Str).isPrefixOf
      (pyLower (pyStrip (("search notes by tag work").data))) = true := by
  refine ⟨resolve_some_properties, resolve_success, ?_, ?_, ?_⟩
  · set_option maxHeartbeats 2000000 in decide
  · decide
  · decide

/-- Witness: C2's universally quantified parts applied at the concrete
input `"search notes by tag work"`. -/
theorem C2_dispatcher_longest_prefix_witness :
    (("search notes by tag work").data : Str) = ("search notes by tag work").data ∧
    (∀ n ∈ registryNames,
      n.isPrefixOf (pyLower (pyStrip (("search notes by tag work").data))) = true →
        n.length ≤ (("search notes by tag").data : Str).length) ∧
    (resolve build_command_map (("search notes by tag work").data)).isSome = true :=
  ⟨rfl,
   ( C2_dispatcher_longest_prefix.1 (("search notes by tag work").data)
      (("search notes by tag").data) CommandTag.searchNotesByTag
      (("search notes by tag work").data) (("work").data)
      C2_dispatcher_longest_prefix.2.2.1).2.2.1,
   C2_dispatcher_longest_prefix.2.1 (("search notes by tag work").data)
      ⟨("search notes by tag").data, by decide, by decide⟩⟩

/-- C10: prefix matching needs no word boundary — any input whose
lowercased trimmed form begins with a registered name resolves (never
reported unknown), and `"quitting"` resolves to the quit handler with
argument `"ting"`. -/
theorem C10_no_word_boundary :
    (∀ input : Str,
      (∃ n ∈ registryNames, n.isPrefixOf (pyLower (pyStrip input)) = true) →
      (resolve build_command_map input).isSome = true) ∧
    resolve build_command_map (("quitting").data) =
      some ((("quit").data : Str), CommandTag.exitCmd,
        (("Exit the assistant.").data : Str), (("ting").data : Str)) := by
  refine ⟨resolve_success, ?_⟩
  decide

/-- Witness: C10's quantified part applied at the concrete input
`"quitting"` (the name `"quit"` is a mid-word prefix). -/
theorem C10_no_word_boundary_witness :
    (resolve build_command_map (("quitting").data)).isSome = true :=
  C10_no_word_boundary.1 (("quitting").data)
    ⟨("quit").data, by decide, by decide⟩

/-! ## C8 — sortedByTags ordering -/

theorem listLtBy_nil_right {α : Type} [DecidableEq α] (lt : α → α → Bool) (x : List α) :
    listLtBy lt x [] = false := by
  cases x <;> rfl

theorem listLtBy_trans {α : Type} [DecidableEq α] (lt : α → α → Bool)
    (htr : ∀ a b c, lt a b = true → lt b c = true → lt a c = true) :
    ∀ x y z : List α, listLtBy lt x y = true → listLtBy lt y z = true →
      listLtBy lt x z = true := by
  intro x
  induction x with
  | nil =>
    intro y z hxy hyz
    rcases y with _ | ⟨b, bs⟩
    · simp [listLtBy] at hxy
    · rcases z with _ | ⟨c, cs⟩
      · simp [listLtBy] at hyz
      · rfl
  | cons a as ih =>
    intro y z hxy hyz
    rcases y with _ | ⟨b, bs⟩
    · rw [listLtBy_nil_right] at hxy
      exact absurd hxy (by simp)
    · rcases z with _ | ⟨c, cs⟩
      · rw [listLtBy_nil_right] at hyz
        exact absurd hyz (by simp)
      · unfold listLtBy at hxy hyz ⊢
        simp only [Bool.or_eq_true, Bool.and_eq_true, decide_eq_true_eq] at hxy hyz ⊢
        rcases hxy with hab | ⟨hab, hasbs⟩
        · rcases hyz with hbc | ⟨hbc, hbscs⟩
          · exact Or.inl (htr a b c hab hbc)
          · exact Or.inl (hbc ▸ hab)
        · rcases hyz with hbc | ⟨hbc, hbscs⟩
          · exact Or.inl (hab ▸ hbc)
          · exact Or.inr ⟨hab.trans hbc, ih bs cs hasbs hbscs⟩

theorem listLtBy_irrefl {α : Type} [DecidableEq α] (lt : α → α → Bool)
    (hirr : ∀ a, lt a a = false) : ∀ x : List α, listLtBy lt x x = false := by
  intro x
  induction x with
  | nil => rfl
  | cons a as ih =>
    unfold listLtBy
    simp [hirr a, ih]

theorem listLtBy_connex {α : Type} [DecidableEq α] (lt : α → α → Bool)
    (hconn : ∀ a b, lt a b = false → lt b a = false → a = b) :
    ∀ x y : List α, listLtBy lt x y = false → listLtBy lt y x = false → x = y := by
  intro x
  induction x with
  | nil =>
    intro y hxy _
    rcases y with _ | ⟨b, bs⟩
    · rfl
    · simp [listLtBy] at hxy
  | cons a as ih =>
    intro y hxy hyx
    rcases y with _ | ⟨b, bs⟩
    · simp [listLtBy] at hyx
    · unfold listLtBy at hxy hyx
      simp only [Bool.or_eq_false_iff, Bool.and_eq_false_iff, decide_eq_false_iff_not] at hxy hyx
      rcases hxy with ⟨hab, hrest⟩
      rcases hyx with ⟨hba, hrest2⟩
      have hab2 : a = b := hconn a b hab hba
      subst hab2
      have : as = bs := by
        rcases hrest with h | h
        · exact absurd rfl h
        · rcases hrest2 with h2 | h2
          · exact absurd rfl h2
          · exact ih bs h h2
      rw [this]

theorem charLt_trans (a b c : Char) (h1 : charLt a b = true) (h2 : charLt b c = true) :
    charLt a c = true := by
  unfold charLt at h1 h2 ⊢
  simp only [decide_eq_true_eq] at h1 h2 ⊢
  exact lt_trans h1 h2

theorem charLt_irrefl (a : Char) : charLt a a = false := by
  unfold charLt
  simp

theorem charLt_connex (a b : Char) (h1 : charLt a b = false) (h2 : charLt b a = false) :
    a = b := by
  unfold charLt at h1 h2
  simp only [decide_eq_false_iff_not, not_lt] at h1 h2
  exact le_antisymm h2 h1

theorem strLt_trans (x y z : Str) (h1 : strLt x y = true) (h2 : strLt y z = true) :
    strLt x z = true :=
  listLtBy_trans charLt charLt_trans x y z h1 h2

theorem strLt_irrefl (x : Str) : strLt x x = false :=
  listLtBy_irrefl charLt charLt_irrefl x

theorem strLt_connex (x y : Str) (h1 : strLt x y = false) (h2 : strLt y x = false) :
    x = y :=
  listLtBy_connex charLt charLt_connex x y h1 h2

theorem strListLt_trans (x y z : List Str) (h1 : strListLt x y = true)
    (h2 : strListLt y z = true) : strListLt x z = true :=
  listLtBy_trans strLt strLt_trans x y z h1 h2

theorem strListLt_irrefl (x : List Str) : strListLt x x = false :=
  listLtBy_irrefl strLt strLt_irrefl x

theorem strListLt_connex (x y : List Str) (h1 : strListLt x y = false)
    (h2 : strListLt y x = false) : x = y :=
  listLtBy_connex strLt strLt_connex x y h1 h2

theorem noteKeyLt_trans (x y z : List Str × Str) (h1 : noteKeyLt x y = true)
    (h2 : noteKeyLt y z = true) : noteKeyLt x z = true := by
  unfold noteKeyLt at h1 h2 ⊢
  simp only [Bool.or_eq_true, Bool.and_eq_true, decide_eq_true_eq] at h1 h2 ⊢
  rcases h1 with h1 | ⟨he1, h1⟩
  · rcases h2 with h2 | ⟨he2, h2⟩
    · exact Or.inl (strListLt_trans _ _ _ h1 h2)
    · exact Or.inl (he2 ▸ h1)
  · rcases h2 with h2 | ⟨he2, h2⟩
    · exact Or.inl (he1 ▸ h2)
    · exact Or.inr ⟨he1.trans he2, strLt_trans _ _ _ h1 h2⟩

theorem noteKeyLt_irrefl (x : List Str × Str) : noteKeyLt x x = false := by
  unfold noteKeyLt
  simp [strListLt_irrefl, strLt_irrefl]

/-- The `le` driving `sorted_by_tags` is total. -/
theorem noteLe_total (a b : Note) :
    (!noteKeyLt (noteSortKey b) (noteSortKey a)) = true ∨
    (!noteKeyLt (noteSortKey a) (noteSortKey b)) = true := by
  by_cases h : noteKeyLt (noteSortKey b) (noteSortKey a) = true
  · right
    by_cases h2 : noteKeyLt (noteSortKey a) (noteSortKey b) = true
    · exact absurd (noteKeyLt_trans _ _ _ h h2) (by simp [noteKeyLt_irrefl])
    · simp [h2]
  · left
    simp [h]

/-- The `le` driving `sorted_by_tags` is transitive. -/
theorem noteLe_trans (a b c : Note)
    (h1 : (!noteKeyLt (noteSortKey b) (noteSortKey a)) = true)
    (h2 : (!noteKeyLt (noteSortKey c) (noteSortKey b)) = true) :
    (!noteKeyLt (noteSortKey c) (noteSortKey a)) = true := by
  simp only [Bool.not_eq_true'] at h1 h2 ⊢
  by_cases hca : noteKeyLt (noteSortKey c) (noteSortKey a) = true
  · by_cases hab : noteKeyLt (noteSortKey a) (noteSortKey b) = true
    · exact absurd (noteKeyLt_trans _ _ _ hca hab) (by simp [h2])
    · have heq : noteSortKey a = noteSortKey b := by
        have h1' : noteKeyLt (noteSortKey a) (noteSortKey b) = false := by
          simpa using hab
        rcases x : noteSortKey a with ⟨ta, sa⟩
        rcases y : noteSortKey b with ⟨tb, sb⟩
        rw [x, y] at h1 h1'
        unfold noteKeyLt at h1 h1'
        simp only [Bool.or_eq_false_iff, Bool.and_eq_false_iff,
          decide_eq_false_iff_not] at h1 h1'
        rcases h1 with ⟨hba, hrest⟩
        rcases h1' with ⟨hab2, hrest2⟩
        have ht : ta = tb := strListLt_connex _ _ hab2 hba
        subst ht
        have hs : sa = sb := by
          rcases hrest with h | h
          · exact absurd rfl h
          · rcases hrest2 with h2 | h2
            · exact absurd rfl h2
            · exact strLt_connex _ _ h2 h
        rw [hs]
      rw [heq] at hca
      exact absurd hca (by simp [h2])
  · simpa using hca

/-- C8: `sorted_by_tags` returns a permutation of the notebook's notes
ordered by (sorted tag list, lowercased title) with the empty-string
placeholder for tagless notes; concretely a tagless note precedes a note
tagged `["a"]`, which precedes one tagged `["b"]`, and equal tag sets are
tie-broken by lowercased title. -/
theorem C8_sorted_by_tags :
    (∀ nb : Notebook,
      (nb.sorted_by_tags).Perm (nb.map (fun e => e.2)) ∧
      List.Pairwise (fun a b => noteKeyLt (noteSortKey b) (noteSortKey a) = false)
        nb.sorted_by_tags) ∧
    Notebook.sorted_by_tags
        [(("d").data, ⟨("d").data, [], []⟩),
         (("c").data, ⟨("c").data, [], [("a").data]⟩),
         (("b").data, ⟨("b").data, [], [("b").data]⟩),
         (("a").data, ⟨("a").data, [], []⟩)] =
      [⟨("a").data, [], []⟩, ⟨("d").data, [], []⟩,
       ⟨("c").data, [], [("a").data]⟩, ⟨("b").data, [], [("b").data]⟩] := by
  constructor
  · intro nb
    constructor
    · exact sortLe_perm _ _
    · have h := sortLe_pairwise (fun a b : Note => !noteKeyLt (noteSortKey b) (noteSortKey a))
        noteLe_trans noteLe_total (nb.map (fun e => e.2))
      exact h.imp (fun hab => by simpa using hab)
  · decide

/-! ## C3, C9 — days_to_birthday -/

/-- The projection the spec describes: the birthday's month/day placed in
today's year, or in the next year when that date is strictly before
today. -/
def projectedBirthday (bd today : Date) : Date :=
  if Date.lt ⟨today.year, bd.month, bd.day⟩ today then
    ⟨today.year + 1, bd.month, bd.day⟩
  else ⟨today.year, bd.month, bd.day⟩

theorem daysBeforeMonth_succ (y m : Nat) (hm : 1 ≤ m) :
    daysBeforeMonth y (m + 1) = daysBeforeMonth y m + daysInMonth y m := by
  rcases m with _ | m
  · omega
  · rfl

theorem daysBeforeMonth_le_succ (y m : Nat) :
    daysBeforeMonth y m ≤ daysBeforeMonth y (m + 1) := by
  rcases m with _ | m
  · simp [daysBeforeMonth]
  · rw [daysBeforeMonth_succ y (m + 1) (by omega)]
    exact Nat.le_add_right _ _

theorem daysBeforeMonth_mono (y : Nat) : ∀ m1 m2 : Nat, m1 ≤ m2 →
    daysBeforeMonth y m1 ≤ daysBeforeMonth y m2 := by
  intro m1 m2 h
  induction m2 with
  | zero =>
    have : m1 = 0 := by omega
    simp [this]
  | succ m2 ih =>
    by_cases hm : m1 = m2 + 1
    · simp [hm]
    · exact (ih (by omega)).trans (daysBeforeMonth_le_succ y m2)

theorem daysBeforeMonth_13 (y : Nat) : daysBeforeMonth y 13 = daysInYear y := by
  by_cases h : isLeap y = true <;>
    simp [daysBeforeMonth, daysInMonth, daysInYear, h]

theorem isLeap_iff (y : Nat) :
    isLeap y = true ↔ (y % 4 = 0 ∧ (y % 100 ≠ 0 ∨ y % 400 = 0)) := by
  unfold isLeap
  simp

set_option maxHeartbeats 1600000 in
theorem leapCount_succ (y : Nat) :
    leapCount (y + 1) = leapCount y + (if isLeap y then 1 else 0) := by
  by_cases hL : isLeap y = true
  · rw [if_pos hL]
    rcases (isLeap_iff y).mp hL with ⟨h4, h⟩
    unfold leapCount
    rcases h with h | h <;> omega
  · rw [if_neg hL]
    have h : ¬ (y % 4 = 0 ∧ (y % 100 ≠ 0 ∨ y % 400 = 0)) :=
      fun hc => hL ((isLeap_iff y).mpr hc)
    unfold leapCount
    omega

theorem leapCount_mono : ∀ y1 y2 : Nat, y1 ≤ y2 → leapCount y1 ≤ leapCount y2 := by
  intro y1 y2 h
  induction y2 with
  | zero =>
    have : y1 = 0 := by omega
    simp [this]
  | succ y2 ih =>
    by_cases hy : y1 = y2 + 1
    · simp [hy]
    · refine (ih (by omega)).trans ?_
      rw [leapCount_succ]
      exact Nat.le_add_right _ _

theorem daysBeforeYear_mono (y1 y2 : Nat) (h : y1 ≤ y2) :
    daysBeforeYear y1 ≤ daysBeforeYear y2 := by
  unfold daysBeforeYear
  have := leapCount_mono y1 y2 h
  have : 365 * y1 ≤ 365 * y2 := by omega
  omega

theorem daysBeforeYear_succ (y : Nat) :
    daysBeforeYear (y + 1) = daysBeforeYear y + daysInYear y := by
  unfold daysBeforeYear daysInYear
  rw [leapCount_succ]
  by_cases h : isLeap y = true <;> simp [h] <;> ring

theorem dayNumber_lt_nextYear (d : Date) (h : d.valid = true) :
    dayNumber d < daysBeforeYear (d.year + 1) := by
  unfold Date.valid at h
  simp only [Bool.and_eq_true, decide_eq_true_eq] at h
  obtain ⟨⟨⟨⟨⟨_, _⟩, hm1⟩, hm12⟩, hd1⟩, hdm⟩ := h
  have hstep : daysBeforeMonth d.year d.month + daysInMonth d.year d.month =
      daysBeforeMonth d.year (d.month + 1) := (daysBeforeMonth_succ _ _ hm1).symm
  have hmono : daysBeforeMonth d.year (d.month + 1) ≤ daysBeforeMonth d.year 13 :=
    daysBeforeMonth_mono _ _ _ (by omega)
  have h13 : daysBeforeMonth d.year 13 = daysInYear d.year := daysBeforeMonth_13 _
  rw [dayNumber, daysBeforeYear_succ]
  omega

theorem daysBeforeYear_le_dayNumber (d : Date) :
    daysBeforeYear d.year ≤ dayNumber d := by
  unfold dayNumber
  omega

theorem dayNumber_lt_of_year_lt (d1 d2 : Date) (h1 : d1.valid = true)
    (_h2 : d2.valid = true) (hy : d1.year < d2.year) :
    dayNumber d1 < dayNumber d2 :=
  lt_of_lt_of_le (dayNumber_lt_nextYear d1 h1)
    ((daysBeforeYear_mono _ _ (by omega)).trans (daysBeforeYear_le_dayNumber d2))

theorem dayNumber_lt_same_year (y m1 d1 m2 d2 : Nat)
    (hv1 : Date.valid ⟨y, m1, d1⟩ = true) (hv2 : Date.valid ⟨y, m2, d2⟩ = true)
    (h : m1 < m2 ∨ (m1 = m2 ∧ d1 < d2)) :
    dayNumber ⟨y, m1, d1⟩ < dayNumber ⟨y, m2, d2⟩ := by
  unfold Date.valid at hv1 hv2
  simp only [Bool.and_eq_true, decide_eq_true_eq] at hv1 hv2
  obtain ⟨⟨⟨⟨⟨_, _⟩, hm1a⟩, _⟩, hd1a⟩, hdma⟩ := hv1
  obtain ⟨⟨⟨⟨⟨_, _⟩, hm1b⟩, _⟩, hd1b⟩, hdmb⟩ := hv2
  unfold dayNumber
  simp only
  rcases h with h | ⟨rfl, h⟩
  · have hstep : daysBeforeMonth y m1 + daysInMonth y m1 = daysBeforeMonth y (m1 + 1) :=
      (daysBeforeMonth_succ _ _ hm1a).symm
    have hmono : daysBeforeMonth y (m1 + 1) ≤ daysBeforeMonth y m2 :=
      daysBeforeMonth_mono _ _ _ (by omega)
    omega
  · omega

theorem dayNumber_le_of_not_lt (y bm bd tm td : Nat)
    (hv1 : Date.valid ⟨y, bm, bd⟩ = true) (hv2 : Date.valid ⟨y, tm, td⟩ = true)
    (h : Date.lt ⟨y, bm, bd⟩ ⟨y, tm, td⟩ = false) :
    dayNumber ⟨y, tm, td⟩ ≤ dayNumber ⟨y, bm, bd⟩ := by
  have hmt : ¬ (bm < tm) := fun hlt => by simp [Date.lt, hlt] at h
  have hdt : bm = tm → ¬ (bd < td) := fun he hlt => by simp [Date.lt, he, hlt] at h
  rcases Nat.lt_or_ge tm bm with hlt | hge
  · exact le_of_lt (dayNumber_lt_same_year y tm td bm bd hv2 hv1 (Or.inl hlt))
  · have he : bm = tm := by omega
    rcases Nat.lt_or_ge td bd with hlt2 | hge2
    · exact le_of_lt (dayNumber_lt_same_year y tm td bm bd hv2 hv1 (Or.inr ⟨he.symm, hlt2⟩))
    · have hbd : bd = td := by
        have := hdt he
        omega
      rw [he, hbd]

theorem days_to_birthday_ok (bd today : Date)
    (h1 : Date.valid ⟨today.year, bd.month, bd.day⟩ = true)
    (h2 : Date.valid today = true)
    (h3 : Date.valid (projectedBirthday bd today) = true) :
    days_to_birthday (some bd) today =
      .ok (some ((dayNumber (projectedBirthday bd today) : Int) - dayNumber today)) ∧
    0 ≤ (dayNumber (projectedBirthday bd today) : Int) - dayNumber today := by
  have hproj := h3
  unfold projectedBirthday at hproj
  have e1 : dateReplaceYear bd today.year = .ok ⟨today.year, bd.month, bd.day⟩ := by
    unfold dateReplaceYear
    rw [if_pos h1]
  by_cases hlt : Date.lt ⟨today.year, bd.month, bd.day⟩ today = true
  · rw [if_pos hlt] at hproj
    have e2 : dateReplaceYear ⟨today.year, bd.month, bd.day⟩ (today.year + 1) =
        .ok ⟨today.year + 1, bd.month, bd.day⟩ := by
      simp [dateReplaceYear, hproj]
    constructor
    · unfold projectedBirthday
      rw [if_pos hlt]
      simp [days_to_birthday, e1, e2, hlt]
    · unfold projectedBirthday
      rw [if_pos hlt]
      have hstrict : dayNumber today < dayNumber ⟨today.year + 1, bd.month, bd.day⟩ :=
        dayNumber_lt_of_year_lt today ⟨today.year + 1, bd.month, bd.day⟩ h2 hproj (by simp)
      omega
  · rw [if_neg hlt] at hproj
    constructor
    · unfold projectedBirthday
      rw [if_neg hlt]
      simp [days_to_birthday, e1, hlt]
    · unfold projectedBirthday
      rw [if_neg hlt]
      have hle : dayNumber today ≤ dayNumber ⟨today.year, bd.month, bd.day⟩ := by
        have h4 : Date.lt ⟨today.year, bd.month, bd.day⟩
            ⟨today.year, today.month, today.day⟩ = false := by
          simpa using hlt
        have h5 : Date.valid ⟨today.year, today.month, today.day⟩ = true := by
          simpa using h2
        have := dayNumber_le_of_not_lt today.year bd.month bd.day today.month today.day
          h1 h5 h4
        simpa using this
      omega

/-- C3 (amended): `daysToBirthday` returns `none` exactly for a missing
birthday, and, provided both `datetime.replace` calls land on existing
dates, returns the non-negative day count to the birthday's month/day in
today's year, or next year when already passed; the `03-15` examples of
the spec evaluate as claimed.  (Without the existence hypotheses the
operation can instead raise, see C9.) -/
theorem C3_days_to_birthday :
    (∀ today : Date, days_to_birthday none today = .ok none) ∧
    (∀ bd today : Date,
      Date.valid ⟨today.year, bd.month, bd.day⟩ = true →
      Date.valid today = true →
      Date.valid (projectedBirthday bd today) = true →
      days_to_birthday (some bd) today =
        .ok (some ((dayNumber (projectedBirthday bd today) : Int) - dayNumber today)) ∧
      0 ≤ (dayNumber (projectedBirthday bd today) : Int) - dayNumber today) ∧
    days_to_birthday (some ⟨2000, 3, 15⟩) ⟨2024, 3, 10⟩ = .ok (some 5) ∧
    days_to_birthday (some ⟨2000, 3, 15⟩) ⟨2024, 3, 20⟩ =
      .ok (some ((dayNumber ⟨2025, 3, 15⟩ : Int) - dayNumber ⟨2024, 3, 20⟩)) ∧
    days_to_birthday (some ⟨2000, 3, 15⟩) ⟨2024, 3, 20⟩ = .ok (some 360) := by
  refine ⟨fun _ => rfl, days_to_birthday_ok, ?_, ?_, ?_⟩
  · set_option maxRecDepth 8000 in decide
  · set_option maxRecDepth 8000 in decide
  · set_option maxRecDepth 8000 in decide

/-- Witness: the amended C3 applied at birthday `03-15`, `today =
2024-03-10`. -/
theorem C3_days_to_birthday_witness :
    days_to_birthday (some ⟨2000, 3, 15⟩) ⟨2024, 3, 10⟩ =
      .ok (some ((dayNumber (projectedBirthday ⟨2000, 3, 15⟩ ⟨2024, 3, 10⟩) : Int) -
        dayNumber ⟨2024, 3, 10⟩)) ∧
    0 ≤ (dayNumber (projectedBirthday ⟨2000, 3, 15⟩ ⟨2024, 3, 10⟩) : Int) -
        dayNumber ⟨2024, 3, 10⟩ :=
  C3_days_to_birthday.2.1 ⟨2000, 3, 15⟩ ⟨2024, 3, 10⟩ (by decide) (by decide) (by decide)

/-- C3 counterexample: for a Feb-29 birthday and `today = 2023-03-01` the
code raises (`datetime.replace` fails on the nonexistent 2023-02-29)
instead of returning a day count, so the claim's unconditional
"otherwise it returns ..." is false. -/
theorem C3_counterexample :
    days_to_birthday (some ⟨2000, 2, 29⟩) ⟨2023, 3, 1⟩ = .error () ∧
    (days_to_birthday (some ⟨2000, 2, 29⟩) ⟨2023, 3, 1⟩).isOk = false := by
  refine ⟨?_, ?_⟩ <;> set_option maxRecDepth 8000 in decide

/-- C9: for a February-29 birthday, whenever the projected year (today's
year, or the next one when the projected date has passed) is not a leap
year, `days_to_birthday` raises instead of returning a value: the error
branch of the year projection is reachable. -/
theorem C9_feb29_error_reachable :
    ∀ (birthYear : Nat) (today : Date),
      isLeap (if Date.lt ⟨today.year, 2, 29⟩ today then today.year + 1
              else today.year) = false →
      days_to_birthday (some ⟨birthYear, 2, 29⟩) today = .error () := by
  intro birthYear today hproj
  by_cases hv : Date.valid ⟨today.year, 2, 29⟩ = true
  · have hleap : isLeap today.year = true := by
      unfold Date.valid at hv
      simp only [Bool.and_eq_true, decide_eq_true_eq] at hv
      rcases hv with ⟨_, hdm⟩
      by_cases h : isLeap today.year = true
      · exact h
      · exfalso
        have : daysInMonth today.year 2 = 28 := by simp [daysInMonth, h]
        omega
    have e1 : dateReplaceYear ⟨birthYear, 2, 29⟩ today.year =
        .ok ⟨today.year, 2, 29⟩ := by
      simp [dateReplaceYear, hv]
    by_cases hlt : Date.lt ⟨today.year, 2, 29⟩ today = true
    · rw [if_pos hlt] at hproj
      have hv2 : Date.valid ⟨today.year + 1, 2, 29⟩ = false := by
        unfold Date.valid
        have : daysInMonth (today.year + 1) 2 = 28 := by simp [daysInMonth, hproj]
        simp [this]
      have e2 : dateReplaceYear ⟨today.year, 2, 29⟩ (today.year + 1) = .error () := by
        simp [dateReplaceYear, hv2]
      simp [days_to_birthday, e1, e2, hlt]
    · rw [if_neg hlt] at hproj
      exact absurd hleap (by simp [hproj])
  · have e1 : dateReplaceYear ⟨birthYear, 2, 29⟩ today.year = .error () := by
      simp [dateReplaceYear, hv]
    simp [days_to_birthday, e1]

/-- Witness: C9 at birthday `2000-02-29` and `today = 2023-01-15` (the
projected year 2023 is not a leap year). -/
theorem C9_feb29_error_reachable_witness :
    days_to_birthday (some ⟨2000, 2, 29⟩) ⟨2023, 1, 15⟩ = .error () :=
  C9_feb29_error_reachable 2000 ⟨2023, 1, 15⟩ (by decide)

/-! ## C1 — edit contact and ValidationError -/

/-- C1 counterexample: updates `[phone=1234567, email=bad]` on a fresh
record raise a ValidationError on the email, yet the record visible after
the exception has the phone added — a field changed by the command that
errored. -/
theorem C1_counterexample :
    applyUpdates ⟨("ann").data, [], none, none, none⟩
        [(("phone").data, ("1234567").data), (("email").data, ("bad").data)] =
      .error ⟨("ann").data, [("1234567").data], none, none, none⟩ ∧
    (⟨("ann").data, [("1234567").data], none, none, none⟩ : ContactRecord) ≠
      ⟨("ann").data, [], none, none, none⟩ := by
  refine ⟨?_, ?_⟩ <;> decide

theorem applyUpdates_cons (r : ContactRecord) (k v : Str) (rest : List (Str × Str)) :
    applyUpdates r ((k, v) :: rest) =
      match applyUpdate r k v with
      | .error () => .error r
      | .ok (r2, msg) =>
        match applyUpdates r2 rest with
        | .error r3 => .error r3
        | .ok (r3, msgs) => .ok (r3, msg :: msgs) := rfl

theorem applyUpdates_cons_ok (r r1 : ContactRecord) (k v : Str) (msg : EditMsg)
    (rest : List (Str × Str)) (h : applyUpdate r k v = .ok (r1, msg)) :
    applyUpdates r ((k, v) :: rest) =
      match applyUpdates r1 rest with
      | .error r3 => .error r3
      | .ok (r3, msgs) => .ok (r3, msg :: msgs) := by
  rw [applyUpdates_cons, h]

/-- C1 (amended): when the update loop of `edit_contact` raises, the
record equals the state produced by the successful updates preceding the
failing one, and the failing update itself has made no write (each
individual field update validates before assigning); in particular a
command whose first update is invalid leaves the record unchanged. -/
theorem C1_edit_atomicity :
    (∀ (r : ContactRecord) (us : List (Str × Str)) (r2 : ContactRecord),
      applyUpdates r us = .error r2 →
        ∃ (pre : List (Str × Str)) (u : Str × Str) (post : List (Str × Str))
          (ms : List EditMsg),
          us = pre ++ u :: post ∧
          applyUpdates r pre = .ok (r2, ms) ∧
          applyUpdates r2 [u] = .error r2) ∧
    (∀ (r : ContactRecord) (k v : Str), applyUpdate r k v = .error () →
      applyUpdates r [(k, v)] = .error r) := by
  constructor
  · intro r us
    induction us generalizing r with
    | nil =>
      intro r2 h
      simp [applyUpdates] at h
    | cons u rest ih =>
      rcases u with ⟨k, v⟩
      intro r2 h
      unfold applyUpdates at h
      rcases hstep : applyUpdate r k v with e | p
      · rw [hstep] at h
        simp at h
        refine ⟨[], (k, v), rest, [], rfl, ?_, ?_⟩
        · rw [← h]
          rfl
        · rw [← h]
          unfold applyUpdates
          rw [hstep]
      · rcases p with ⟨r1, msg⟩
        rw [hstep] at h
        simp only at h
        rcases hrest : applyUpdates r1 rest with r3 | q
        · rw [hrest] at h
          simp at h
          subst h
          rcases ih r1 r3 hrest with ⟨pre, u2, post, ms, hsplit, hpre, hfail⟩
          refine ⟨(k, v) :: pre, u2, post, msg :: ms, by simp [hsplit], ?_, hfail⟩
          rw [applyUpdates_cons_ok r r1 k v msg pre hstep, hpre]
        · rcases q with ⟨r4, msgs⟩
          rw [hrest] at h
          simp at h
  · intro r k v h
    unfold applyUpdates
    rw [h]

/-- Witness: the amended C1 applied to a single invalid email update on a
concrete record (the error carries the unchanged record). -/
theorem C1_edit_atomicity_witness :
    ∃ (pre : List (Str × Str)) (u : Str × Str) (post : List (Str × Str))
      (ms : List EditMsg),
      [((("email").data : Str), (("bad").data : Str))] = pre ++ u :: post ∧
      applyUpdates ⟨("ann").data, [], none, none, none⟩ pre =
        .ok (⟨("ann").data, [], none, none, none⟩, ms) ∧
      applyUpdates ⟨("ann").data, [], none, none, none⟩ [u] =
        .error ⟨("ann").data, [], none, none, none⟩ :=
  C1_edit_atomicity.1 ⟨("ann").data, [], none, none, none⟩
    [(("email").data, ("bad").data)] ⟨("ann").data, [], none, none, none⟩ (by decide)

/-! ## C4 — serialization round trip

Machinery: rendering a number as decimal digits and parsing it back. -/

theorem digitChar_isDigit (d : Nat) (h : d < 10) : (Nat.digitChar d).isDigit = true := by
  interval_cases d <;> decide

theorem digitChar_val (d : Nat) (h : d < 10) : (Nat.digitChar d).toNat - 48 = d := by
  interval_cases d <;> decide

theorem natFromDigits_append_singleton (a : Str) (c : Char) :
    natFromDigits (a ++ [c]) = natFromDigits a * 10 + (c.toNat - 48) := by
  unfold natFromDigits
  rw [List.foldl_append]
  rfl

theorem natFromDigits_map_digitChar (l : List Nat) (h : ∀ d ∈ l, d < 10) :
    natFromDigits ((l.map Nat.digitChar).reverse) = Nat.ofDigits 10 l := by
  induction l with
  | nil => simp [natFromDigits, Nat.ofDigits_nil]
  | cons d l ih =>
    have hd : d < 10 := h d (by simp)
    have hl : ∀ x ∈ l, x < 10 := fun x hx => h x (by simp [hx])
    rw [List.map_cons, List.reverse_cons, natFromDigits_append_singleton, ih hl,
      Nat.ofDigits_cons, digitChar_val d hd]
    ring

theorem digitsRev_eq : ∀ fuel n : Nat, n ≤ fuel → digitsRev fuel n = Nat.digits 10 n := by
  intro fuel
  induction fuel with
  | zero =>
    intro n h
    have : n = 0 := by omega
    subst this
    rw [Nat.digits_zero]
    rfl
  | succ fuel ih =>
    intro n h
    rcases n with _ | n
    · rw [Nat.digits_zero]
      rfl
    · show ((n + 1) % 10) :: digitsRev fuel ((n + 1) / 10) = _
      rw [Nat.digits_def' (b := 10) (by norm_num) (Nat.succ_pos n),
        ih ((n + 1) / 10) (by omega)]

theorem natToDigitChars_eq (n : Nat) :
    natToDigitChars n = ((Nat.digits 10 n).map Nat.digitChar).reverse := by
  unfold natToDigitChars
  rw [digitsRev_eq n n (Nat.le_refl n)]

theorem natFromDigits_natToDigitChars (n : Nat) :
    natFromDigits (natToDigitChars n) = n := by
  rw [natToDigitChars_eq]
  rw [natFromDigits_map_digitChar (Nat.digits 10 n)
    (fun d hd => Nat.digits_lt_base (by norm_num) hd)]
  exact Nat.ofDigits_digits 10 n

theorem natFromDigits_replicate_zero (k : Nat) :
    natFromDigits (List.replicate k '0') = 0 := by
  induction k with
  | zero => rfl
  | succ k ih =>
    unfold natFromDigits at ih ⊢
    rw [List.replicate_succ]
    simpa using ih

theorem natFromDigits_padZero (w : Nat) (s : Str) :
    natFromDigits (padZero w s) = natFromDigits s := by
  unfold padZero natFromDigits
  rw [List.foldl_append]
  have h := natFromDigits_replicate_zero (w - s.length)
  unfold natFromDigits at h
  rw [h]

theorem digits_len_le_of_lt (m n : Nat) (h : m < 10 ^ n) :
    (Nat.digits 10 m).length ≤ n := by
  by_cases hm : m = 0
  · simp [hm]
  · by_contra hlen
    push_neg at hlen
    have h1 : (10 : Nat) ^ (n + 1) ≤ 10 ^ (Nat.digits 10 m).length :=
      Nat.pow_le_pow_right (by norm_num) hlen
    have h2 : 10 ^ (Nat.digits 10 m).length ≤ 10 * m :=
      Nat.base_pow_length_digits_le 10 m (by norm_num) hm
    have h3 : 10 * 10 ^ n ≤ 10 * m := by
      calc 10 * 10 ^ n = 10 ^ (n + 1) := by ring
        _ ≤ 10 ^ (Nat.digits 10 m).length := h1
        _ ≤ 10 * m := h2
    have h4 : 10 ^ n ≤ m := Nat.le_of_mul_le_mul_left h3 (by norm_num)
    omega

theorem natToDigitChars_length_le (n w : Nat) (h : n < 10 ^ w) :
    (natToDigitChars n).length ≤ w := by
  rw [natToDigitChars_eq]
  simpa using digits_len_le_of_lt n w h

theorem padZero_length (w : Nat) (s : Str) (h : s.length ≤ w) :
    (padZero w s).length = w := by
  unfold padZero
  simp
  omega

theorem padZero_all_isDigit (w : Nat) (s : Str) (h : s.all Char.isDigit = true) :
    (padZero w s).all Char.isDigit = true := by
  unfold padZero
  simp only [List.all_append, Bool.and_eq_true]
  refine ⟨?_, h⟩
  simp only [List.all_eq_true]
  intro c hc
  have : c = '0' := List.eq_of_mem_replicate hc
  rw [this]
  decide

theorem natToDigitChars_all_isDigit (n : Nat) :
    (natToDigitChars n).all Char.isDigit = true := by
  rw [natToDigitChars_eq]
  simp only [List.all_eq_true, List.mem_reverse, List.mem_map]
  rintro c ⟨d, hd, rfl⟩
  exact digitChar_isDigit d (Nat.digits_lt_base (by norm_num) hd)

theorem dropWhile_eq_self_of_all (p : Char → Bool) (s : Str)
    (h : ∀ c ∈ s, p c = false) : s.dropWhile p = s := by
  rcases s with _ | ⟨c, rest⟩
  · rfl
  · unfold List.dropWhile
    rw [h c (by simp)]

theorem pyStrip_eq_self (s : Str) (h : ∀ c ∈ s, c.isWhitespace = false) :
    pyStrip s = s := by
  unfold pyStrip
  rw [dropWhile_eq_self_of_all _ s h,
    dropWhile_eq_self_of_all _ s.reverse (fun c hc => h c (List.mem_reverse.mp hc)),
    List.reverse_reverse]

theorem splitChar_cons (sep c : Char) (rest : Str) :
    splitChar sep (c :: rest) =
      if c = sep then [] :: splitChar sep rest
      else match splitChar sep rest with
        | [] => [[c]]
        | p :: ps => (c :: p) :: ps := rfl

theorem splitChar_not_mem (sep : Char) (s : Str) (h : sep ∉ s) :
    splitChar sep s = [s] := by
  induction s with
  | nil => rfl
  | cons c rest ih =>
    have hc : ¬ c = sep := fun he => h (by simp [he])
    have hr : sep ∉ rest := fun hm => h (by simp [hm])
    rw [splitChar_cons, if_neg hc, ih hr]

theorem splitChar_append (sep : Char) (a rest : Str) (h : sep ∉ a) :
    splitChar sep (a ++ sep :: rest) = a :: splitChar sep rest := by
  induction a with
  | nil =>
    rw [List.nil_append, splitChar_cons, if_pos rfl]
  | cons c as ih =>
    have hc : ¬ c = sep := fun he => h (by simp [he])
    have ha : sep ∉ as := fun hm => h (by simp [hm])
    rw [List.cons_append, splitChar_cons, if_neg hc, ih ha]

theorem isDigit_ne_dash (c : Char) (h : c.isDigit = true) : c ≠ '-' := by
  intro he
  rw [he] at h
  simp [Char.isDigit] at h

theorem isDigit_not_ws (c : Char) (h : c.isDigit = true) : c.isWhitespace = false := by
  by_contra hw
  simp only [Bool.not_eq_false] at hw
  unfold Char.isWhitespace at hw
  simp only [Bool.or_eq_true, decide_eq_true_eq] at hw
  rcases hw with ((hc | hc) | hc) | hc <;> rw [hc] at h <;> simp at h

/-- The rendered birthday parses back to the same date. -/
theorem birthday_roundtrip (d : Date) (h : Date.valid d = true) :
    Birthday.validate (Birthday.render d) = .ok d := by
  have hvalid := h
  unfold Date.valid at hvalid
  simp only [Bool.and_eq_true, decide_eq_true_eq] at hvalid
  obtain ⟨⟨⟨⟨⟨hy1, hy2⟩, hm1⟩, hm2⟩, hd1⟩, hd2⟩ := hvalid
  have hdm31 : daysInMonth d.year d.month ≤ 31 := by
    rcases d.month with _ | _ | _ | _ | _ | _ | _ | _ | _ | _ | _ | _ | m <;>
      simp [daysInMonth] <;> split <;> omega
  set ys := padZero 4 (natToDigitChars d.year) with hys
  set ms := padZero 2 (natToDigitChars d.month) with hms
  set ds := padZero 2 (natToDigitChars d.day) with hds
  have hysd : ys.all Char.isDigit = true :=
    padZero_all_isDigit _ _ (natToDigitChars_all_isDigit _)
  have hmsd : ms.all Char.isDigit = true :=
    padZero_all_isDigit _ _ (natToDigitChars_all_isDigit _)
  have hdsd : ds.all Char.isDigit = true :=
    padZero_all_isDigit _ _ (natToDigitChars_all_isDigit _)
  have hysl : ys.length = 4 :=
    padZero_length _ _ (natToDigitChars_length_le _ _ (by omega))
  have hmsl : ms.length = 2 :=
    padZero_length _ _ (natToDigitChars_length_le _ _ (by omega))
  have hdsl : ds.length = 2 :=
    padZero_length _ _ (natToDigitChars_length_le _ _ (by omega))
  have hrender : Birthday.render d = ys ++ '-' :: (ms ++ '-' :: ds) := by
    unfold Birthday.render
    rw [hys, hms, hds]
    simp [List.append_assoc]
  have hnws : ∀ c ∈ Birthday.render d, c.isWhitespace = false := by
    intro c hc
    rw [hrender] at hc
    simp only [List.mem_append, List.mem_cons] at hc
    rcases hc with hc | hc | hc
    · exact isDigit_not_ws c (by
        have := List.all_eq_true.mp hysd c hc
        exact this)
    · rw [hc]; decide
    · rcases hc with hc | hc | hc
      · exact isDigit_not_ws c (List.all_eq_true.mp hmsd c hc)
      · rw [hc]; decide
      · exact isDigit_not_ws c (List.all_eq_true.mp hdsd c hc)
  have hnd1 : ('-' : Char) ∉ ys := fun hm =>
    isDigit_ne_dash '-' (List.all_eq_true.mp hysd '-' hm) rfl
  have hnd2 : ('-' : Char) ∉ ms := fun hm =>
    isDigit_ne_dash '-' (List.all_eq_true.mp hmsd '-' hm) rfl
  have hnd3 : ('-' : Char) ∉ ds := fun hm =>
    isDigit_ne_dash '-' (List.all_eq_true.mp hdsd '-' hm) rfl
  have hsplit : splitChar '-' (Birthday.render d) = [ys, ms, ds] := by
    rw [hrender, splitChar_append '-' ys _ hnd1, splitChar_append '-' ms _ hnd2,
      splitChar_not_mem '-' ds hnd3]
  have hyv : natFromDigits ys = d.year := by
    rw [hys, natFromDigits_padZero, natFromDigits_natToDigitChars]
  have hmv : natFromDigits ms = d.month := by
    rw [hms, natFromDigits_padZero, natFromDigits_natToDigitChars]
  have hdv : natFromDigits ds = d.day := by
    rw [hds, natFromDigits_padZero, natFromDigits_natToDigitChars]
  unfold Birthday.validate
  rw [pyStrip_eq_self _ hnws, hsplit]
  show birthdayCheck ys ms ds = .ok d
  unfold birthdayCheck
  rw [if_pos (by
    simp only [Bool.and_eq_true, decide_eq_true_eq]
    refine ⟨⟨⟨⟨⟨⟨⟨hysl, hysd⟩, ?_⟩, ?_⟩, hmsd⟩, ?_⟩, ?_⟩, hdsd⟩ <;> omega)]
  rw [hyv, hmv, hdv]
  rw [if_pos (by
    show Date.valid ⟨d.year, d.month, d.day⟩ = true
    exact h)]

/-- A record whose stored fields are fixpoints of their validators — the
shape every record built through the validating constructor has. -/
def ContactRecord.validB (r : ContactRecord) : Bool :=
  decide (Name.validate r.name = .ok r.name) &&
  r.phones.all (fun p => decide (Phone.validate p = .ok p)) &&
  r.email.all (fun e => decide (Email.validate e = .ok e)) &&
  r.address.all (fun a => decide (Address.validate a = .ok a)) &&
  r.birthday.all Date.valid

/-- Pairwise-distinct keys (what a Python dict guarantees). -/
def keysDistinct : AddressBook → Bool
  | [] => true
  | e :: rest => rest.all (fun e2 => decide (¬ e2.1 = e.1)) && keysDistinct rest

/-- A book as the program builds it: keyed by lowercased names, holding
validated records, with distinct keys. -/
def WellFormedBook (b : AddressBook) : Bool :=
  b.all (fun e => decide (e.1 = pyLower e.2.name) && e.2.validB) && keysDistinct b

theorem emailValidate_ok_ne_nil (e : Str) (h : Email.validate e = .ok e) : e ≠ [] := by
  intro he
  rw [he] at h
  exact absurd h (by decide)

theorem addressValidate_ok_ne_nil (a : Str) (h : Address.validate a = .ok a) : a ≠ [] := by
  intro ha
  rw [ha] at h
  exact absurd h (by decide)

theorem render_ne_nil (d : Date) : Birthday.render d ≠ [] := by
  intro h
  have hlen := congrArg List.length h
  unfold Birthday.render padZero at hlen
  simp at hlen

theorem set_email_some (r : ContactRecord) (s : Str) :
    r.set_email (some s) =
      if s = [] then .ok { r with email := none }
      else match Email.validate s with
        | .error e => .error e
        | .ok v => .ok { r with email := some v } := rfl

theorem set_address_some (r : ContactRecord) (s : Str) :
    r.set_address (some s) =
      if s = [] then .ok { r with address := none }
      else match Address.validate s with
        | .error e => .error e
        | .ok v => .ok { r with address := some v } := rfl

theorem set_birthday_some (r : ContactRecord) (s : Str) :
    r.set_birthday (some s) =
      if s = [] then .ok { r with birthday := none }
      else match Birthday.validate s with
        | .error e => .error e
        | .ok v => .ok { r with birthday := some v } := rfl

theorem add_phone_eq (r : ContactRecord) (p : Str) :
    r.add_phone p =
      match Phone.validate p with
      | .error e => .error e
      | .ok v => .ok { r with phones := r.phones ++ [v] } := rfl

theorem addPhones_cons (r : ContactRecord) (p : Str) (ps : List Str) :
    addPhones r (p :: ps) =
      match r.add_phone p with
      | .error e => .error e
      | .ok r2 => addPhones r2 ps := rfl

theorem addPhones_ok (ps : List Str) :
    ∀ r : ContactRecord, (∀ p ∈ ps, Phone.validate p = .ok p) →
      addPhones r ps = .ok { r with phones := r.phones ++ ps } := by
  induction ps with
  | nil =>
    intro r _
    show Except.ok r = _
    simp
  | cons p ps ih =>
    intro r h
    have hp : Phone.validate p = .ok p := h p (by simp)
    rw [addPhones_cons, add_phone_eq, hp]
    show addPhones { r with phones := r.phones ++ [p] } ps = _
    rw [ih _ (fun q hq => h q (by simp [hq]))]
    simp

/-- A valid record survives `to_dict`/`from_dict` unchanged. -/
theorem from_dict_to_dict (r : ContactRecord) (h : r.validB = true) :
    ContactRecord.from_dict r.to_dict = .ok r := by
  unfold ContactRecord.validB at h
  simp only [Bool.and_eq_true, decide_eq_true_eq, List.all_eq_true] at h
  obtain ⟨⟨⟨⟨hname, hph⟩, hem⟩, had⟩, hbd⟩ := h
  have e1 : ({ name := r.name, phones := [], email := none, address := none,
               birthday := none } : ContactRecord).set_email r.email =
      Except.ok { name := r.name, phones := [], email := r.email, address := none,
                  birthday := none } := by
    rcases hre : r.email with _ | e
    · rfl
    · rw [hre] at hem
      simp only [Option.all_some, decide_eq_true_eq] at hem
      rw [set_email_some, if_neg (emailValidate_ok_ne_nil e hem), hem]
  have e2 : ({ name := r.name, phones := [], email := r.email, address := none,
               birthday := none } : ContactRecord).set_address r.address =
      Except.ok { name := r.name, phones := [], email := r.email, address := r.address,
                  birthday := none } := by
    rcases hra : r.address with _ | a
    · rfl
    · rw [hra] at had
      simp only [Option.all_some, decide_eq_true_eq] at had
      rw [set_address_some, if_neg (addressValidate_ok_ne_nil a had), had]
  have e3 : ({ name := r.name, phones := [], email := r.email, address := r.address,
               birthday := none } : ContactRecord).set_birthday
        (r.birthday.map Birthday.render) =
      Except.ok { name := r.name, phones := [], email := r.email, address := r.address,
                  birthday := r.birthday } := by
    rcases hrb : r.birthday with _ | b
    · rfl
    · rw [hrb] at hbd
      simp only [Option.all_some] at hbd
      rw [Option.map_some', set_birthday_some, if_neg (render_ne_nil b),
        birthday_roundtrip b hbd]
  unfold ContactRecord.from_dict ContactRecord.to_dict mkContactRecord
  simp only [hname, e1, e2, e3]
  rw [addPhones_ok r.phones _ hph]
  simp

theorem dictSet_append (b : AddressBook) (k : Str) (v : ContactRecord)
    (h : ∀ e ∈ b, e.1 ≠ k) : dictSet b k v = b ++ [(k, v)] := by
  induction b with
  | nil => rfl
  | cons e rest ih =>
    rcases e with ⟨k2, v2⟩
    have hk : k2 ≠ k := h (k2, v2) (by simp)
    unfold dictSet
    rw [if_neg hk, ih (fun e2 he2 => h e2 (by simp [he2]))]
    rfl

theorem fromSerAux_cons (book : AddressBook) (e : SerializedContact)
    (rest : List SerializedContact) :
    fromSerAux book (e :: rest) =
      match ContactRecord.from_dict e with
      | .error err => .error err
      | .ok r => fromSerAux (book.add_record r) rest := rfl

theorem fromSerAux_roundtrip (b : AddressBook) :
    ∀ acc : AddressBook,
      (∀ e ∈ b, e.1 = pyLower e.2.name ∧ e.2.validB = true) →
      (∀ e ∈ b, ∀ e2 ∈ acc, e2.1 ≠ e.1) →
      keysDistinct b = true →
      fromSerAux acc (AddressBook.to_serializable b) = .ok (acc ++ b) := by
  induction b with
  | nil =>
    intro acc _ _ _
    show Except.ok acc = _
    simp
  | cons e rest ih =>
    intro acc hwf hdisj hkeys
    rcases e with ⟨k, r⟩
    obtain ⟨hkey, hvalid⟩ := hwf (k, r) (by simp)
    unfold keysDistinct at hkeys
    simp only [Bool.and_eq_true, List.all_eq_true, decide_eq_true_eq] at hkeys
    obtain ⟨hkdist, hkeysrest⟩ := hkeys
    show fromSerAux acc (r.to_dict :: AddressBook.to_serializable rest) = _
    rw [fromSerAux_cons, from_dict_to_dict r hvalid]
    show fromSerAux (acc.add_record r) (AddressBook.to_serializable rest) = _
    have hadd : acc.add_record r = acc ++ [(k, r)] := by
      unfold AddressBook.add_record
      rw [← hkey]
      exact dictSet_append acc k r (fun e2 he2 => hdisj (k, r) (by simp) e2 he2)
    rw [hadd, ih (acc ++ [(k, r)])
      (fun e he => hwf e (by simp [he]))
      (fun e he e2 he2 => by
        simp only [List.mem_append, List.mem_singleton] at he2
        rcases he2 with he2 | he2
        · exact hdisj e (by simp [he]) e2 he2
        · rw [he2]
          exact fun hc => (hkdist e he) hc.symm)
      hkeysrest]
    simp

/-- C4: serializing and deserializing a well-formed address book
reproduces it exactly — same keys in the same order, each record with
equal name, phones, email, address and birthday; shown also on a concrete
non-empty two-record book exercising every field. -/
theorem C4_serialization_roundtrip :
    (∀ b : AddressBook, WellFormedBook b = true →
      AddressBook.from_serializable (AddressBook.to_serializable b) = .ok b) ∧
    AddressBook.from_serializable (AddressBook.to_serializable
      [(("john doe").data,
        ⟨("John Doe").data, [("+380501234567").data, ("1234567").data],
         some (("a@b.co").data), some (("Main st. 7").data), some ⟨2000, 2, 29⟩⟩),
       (("ann").data, ⟨("Ann").data, [], none, none, none⟩)]) =
      .ok [(("john doe").data,
        ⟨("John Doe").data, [("+380501234567").data, ("1234567").data],
         some (("a@b.co").data), some (("Main st. 7").data), some ⟨2000, 2, 29⟩⟩),
       (("ann").data, ⟨("Ann").data, [], none, none, none⟩)] ∧
    ([(("john doe").data,
        ⟨("John Doe").data, [("+380501234567").data, ("1234567").data],
         some (("a@b.co").data), some (("Main st. 7").data), some ⟨2000, 2, 29⟩⟩),
       (("ann").data, ⟨("Ann").data, [], none, none, none⟩)] : AddressBook) ≠ [] := by
  refine ⟨?_, ?_, ?_⟩
  · intro b hwf
    unfold WellFormedBook at hwf
    simp only [Bool.and_eq_true, List.all_eq_true, decide_eq_true_eq] at hwf
    obtain ⟨hall, hkeys⟩ := hwf
    unfold AddressBook.from_serializable
    have := fromSerAux_roundtrip b []
      (fun e he => hall e he)
      (fun e _ e2 he2 => by simp at he2)
      hkeys
    simpa using this
  · decide
  · decide

/-- Witness: C4's quantified part applied at a concrete singleton book. -/
theorem C4_serialization_roundtrip_witness :
    AddressBook.from_serializable (AddressBook.to_serializable
      [(("ann").data, ⟨("Ann").data, [("1234567").data], none, none, none⟩)]) =
      .ok [(("ann").data, ⟨("Ann").data, [("1234567").data], none, none, none⟩)] :=
  C4_serialization_roundtrip.1
    [(("ann").data, ⟨("Ann").data, [("1234567").data], none, none, none⟩)] (by decide)

/-! ## C5 — suggestion fallback -/

theorem cutoffOk_nil (nm : Str) : cutoffOk nm [] = false := by
  have h0 : realQuickRatioOf nm [] = 0 := by
    unfold realQuickRatioOf
    simp
  unfold cutoffOk
  rw [h0]
  simp [show decide (mkRat 1 2 ≤ (0 : ℚ)) = false from by decide]

theorem gcm_empty (names : List Str) : get_close_matches_top [] names = none := by
  unfold get_close_matches_top
  have hf : names.filter (fun nm => cutoffOk nm []) = [] :=
    List.filter_eq_nil_iff.mpr (fun nm _ => by simp [cutoffOk_nil])
  rw [hf]
  rfl

theorem joinSpace_single (w : Str) : joinSpace [w] = w := by
  simp [joinSpace, List.intercalate]

theorem tryCounts_succ (words names : List Str) (wc : Nat) :
    tryCounts words names (wc + 1) =
      match get_close_matches_top (joinSpace (words.take (wc + 1))) names with
      | some m => some m
      | none => tryCounts words names wc := rfl

theorem tryCounts_step_down (words names : List Str) (k : Nat) (hk : 1 ≤ k)
    (hlen : words.length ≤ k) :
    tryCounts words names (k + 1) = tryCounts words names k := by
  rcases k with _ | k
  · omega
  · rw [tryCounts_succ words names (k + 1), tryCounts_succ words names k,
      List.take_of_length_le hlen, List.take_of_length_le (by omega)]
    rcases hg : get_close_matches_top (joinSpace words) names with _ | m <;> simp [hg]

theorem pySplit_cons (c : Char) (rest : Str) :
    pySplit (c :: rest) =
      if c.isWhitespace then pySplit rest
      else (c :: rest.takeWhile (fun x => ¬ x.isWhitespace)) ::
        pySplit (rest.dropWhile (fun x => ¬ x.isWhitespace)) := by
  rw [pySplit]

theorem all_ws_of_pySplit_nil (s : Str) (h : pySplit s = []) :
    ∀ c ∈ s, c.isWhitespace = true := by
  induction s using pySplit.induct with
  | case1 => simp
  | case2 c rest hw ih =>
    rw [pySplit_cons, if_pos hw] at h
    intro x hx
    rcases List.mem_cons.mp hx with rfl | hx
    · exact hw
    · exact ih h x hx
  | case3 c rest hw ih =>
    rw [pySplit_cons, if_neg hw] at h
    simp at h

theorem length_pyStrip_le (s : Str) :
    (pyStrip s).length ≤ (s.dropWhile Char.isWhitespace).length := by
  unfold pyStrip
  rw [List.length_reverse]
  exact (dropWhile_length_le _ _).trans (by rw [List.length_reverse])

theorem stripped_head_not_ws (c : Char) (rest : Str)
    (h : pyStrip (c :: rest) = c :: rest) : c.isWhitespace = false := by
  by_contra hw
  simp only [Bool.not_eq_false] at hw
  have h1 : ((c :: rest).dropWhile Char.isWhitespace).length ≤ rest.length := by
    rw [List.dropWhile_cons, if_pos hw]
    exact dropWhile_length_le _ _
  have h2 := length_pyStrip_le (c :: rest)
  rw [h] at h2
  simp at h2
  omega

theorem no_all_ws_suffix (s : Str) (hs : pyStrip s = s) (pre d : Str) (hd : d ≠ [])
    (hsd : s = pre ++ d) (hws : ∀ c ∈ d, c.isWhitespace = true) : False := by
  rcases s with _ | ⟨c, r⟩
  · rcases pre with _ | _
    · simp at hsd
      exact hd hsd
    · simp at hsd
  · have hc : c.isWhitespace = false := stripped_head_not_ws c r hs
    have hdr : (c :: r).dropWhile Char.isWhitespace = c :: r := by
      rw [List.dropWhile_cons, if_neg (by simp [hc])]
    rcases hrev : d.reverse with _ | ⟨w, t⟩
    · exact hd (by simpa using congrArg List.reverse hrev)
    · have hwmem : w ∈ d := by
        have : w ∈ d.reverse := by simp [hrev]
        exact List.mem_reverse.mp this
      have hww : w.isWhitespace = true := hws w hwmem
      have hsr : (c :: r).reverse = w :: (t ++ pre.reverse) := by
        rw [hsd, List.reverse_append, hrev]
        rfl
      have hlen : (pyStrip (c :: r)).length < (c :: r).length := by
        unfold pyStrip
        rw [hdr, List.length_reverse, hsr, List.dropWhile_cons, if_pos hww]
        have hle := dropWhile_length_le Char.isWhitespace (t ++ pre.reverse)
        have hlen2 : (w :: (t ++ pre.reverse)).length = (c :: r).length := by
          rw [← hsr, List.length_reverse]
        simp only [List.length_cons, List.length_append, List.length_reverse]
          at hle hlen2 ⊢
        omega
      rw [hs] at hlen
      omega

theorem pySplit_single_of_stripped (input w : Str) (hstrip : pyStrip input = input)
    (h : pySplit input = [w]) : w = input := by
  rcases input with _ | ⟨c, rest⟩
  · simp [pySplit] at h
  · have hc : c.isWhitespace = false := stripped_head_not_ws c rest hstrip
    rw [pySplit_cons, if_neg (by simp [hc])] at h
    simp only [List.cons.injEq] at h
    obtain ⟨hw, hnil⟩ := h
    have hall : ∀ x ∈ rest.dropWhile (fun x => ¬ x.isWhitespace), x.isWhitespace = true :=
      all_ws_of_pySplit_nil _ hnil
    by_cases hdnil : rest.dropWhile (fun x => ¬ x.isWhitespace) = []
    · have : rest.takeWhile (fun x => ¬ x.isWhitespace) = rest := by
        have := List.takeWhile_append_dropWhile (fun x : Char => ¬ x.isWhitespace) rest
        rw [hdnil] at this
        simpa using this
      rw [← hw, this]
    · exact absurd (no_all_ws_suffix (c :: rest) hstrip
        (c :: rest.takeWhile (fun x => ¬ x.isWhitespace))
        (rest.dropWhile (fun x => ¬ x.isWhitespace)) hdnil
        (by
          rw [List.cons_append]
          rw [List.takeWhile_append_dropWhile])
        hall) (fun hf => hf)

theorem pySplit_nil : pySplit ([] : Str) = [] := by
  rw [pySplit]

theorem tryCounts_nil (names : List Str) (k : Nat) :
    tryCounts [] names k = none := by
  induction k with
  | zero => rfl
  | succ k ih =>
    rw [tryCounts_succ]
    have hj : joinSpace (List.take (k + 1) ([] : List Str)) = [] := rfl
    rw [hj, gcm_empty, ih]

theorem tryCounts_single_none (w : Str) (names : List Str) (k : Nat)
    (hg : get_close_matches_top w names = none) :
    tryCounts [w] names k = none := by
  induction k with
  | zero => rfl
  | succ k ih =>
    rw [tryCounts_succ, List.take_of_length_le (by simp), joinSpace_single, hg, ih]

theorem tryCounts_min (words names : List Str) (hw : 1 ≤ words.length) :
    ∀ k, words.length ≤ k →
      tryCounts words names k = tryCounts words names words.length := by
  intro k
  induction k with
  | zero => intro h; omega
  | succ k ih =>
    intro h
    rcases Nat.lt_or_ge k words.length with hlt | hge
    · have hk : words.length = k + 1 := by omega
      rw [hk]
    · rw [tryCounts_step_down words names k (by omega) hge]
      exact ih hge

/-- On inputs already stripped of surrounding whitespace (the CLI always
strips before dispatch and suggestion), `suggest_command` computes exactly
the spec's flow: top-1 close match on the whole input at cutoff 1/2, then
retries on the first 1–4 whitespace-separated words, longest first.  The
source's extra `len(words) > 1` guard and `min(4, len(words))` cap never
change the result. -/
theorem suggest_eq_spec (input : Str) (hstrip : pyStrip input = input) :
    suggest_command input build_command_map = suggestionSpec input registryNames := by
  by_cases hne : input = []
  · subst hne
    have h1 : suggest_command [] build_command_map = none := rfl
    have h2 : suggestionSpec [] registryNames = none := by
      unfold suggestionSpec
      rw [gcm_empty, pySplit_nil, tryCounts_nil]
    rw [h1, h2]
  · unfold suggest_command suggestionSpec registryNames
    rw [if_neg hne]
    generalize hg : get_close_matches_top input (build_command_map.map (fun e => e.1)) = g
    rcases g with _ | m
    · have key : (if 2 ≤ (pySplit input).length
            then tryCounts (pySplit input) (build_command_map.map (fun e => e.1))
              (min 4 (pySplit input).length)
            else none) =
          tryCounts (pySplit input) (build_command_map.map (fun e => e.1)) 4 := by
        rcases hsp : pySplit input with _ | ⟨w, ws⟩
        · exfalso
          rcases input with _ | ⟨c, r⟩
          · exact hne rfl
          · have hc := stripped_head_not_ws c r hstrip
            have hcw := all_ws_of_pySplit_nil _ hsp c (by simp)
            rw [hc] at hcw
            exact Bool.false_ne_true hcw
        · rcases ws with _ | ⟨w2, ws2⟩
          · have hw : w = input := pySplit_single_of_stripped input w hstrip hsp
            rw [if_neg (by simp), hw]
            exact (tryCounts_single_none input _ 4 hg).symm
          · have hlen2 : 2 ≤ (w :: w2 :: ws2).length := by
              simp only [List.length_cons]
              omega
            rw [if_pos hlen2]
            rcases le_or_lt (w :: w2 :: ws2).length 4 with h4 | h4
            · rw [Nat.min_eq_right h4]
              exact (tryCounts_min _ _ (by simp only [List.length_cons]; omega) 4 h4).symm
            · rw [Nat.min_eq_left (by omega)]
      exact key
    · rfl

/-- C5: the suggestion function first compares the full lowercased input
against all command names with a similarity cutoff of 1/2 taking the
top-1 result, and when that fails repeats the comparison on the input
truncated to its first 1–4 whitespace-separated words, longest truncation
first, returning the first match found and `none` when all fail
(`suggest_eq_spec` applied over every stripped input: the CLI strips and
lowercases before dispatch); in particular the input `"ad contact john"`
has no registered command name as a prefix (`resolve` yields `none`), and
`suggest_command` returns the suggestion `"add contact"`, which is one of
the registered command names. -/
theorem C5_suggestion_fallback :
    (∀ input : Str, pyStrip input = input →
      suggest_command input build_command_map = suggestionSpec input registryNames) ∧
    resolve build_command_map (("ad contact john").data) = none ∧
    suggest_command (("ad contact john").data) build_command_map =
      some (("add contact").data) ∧
    (("add contact").data : Str) ∈ registryNames :=
  ⟨suggest_eq_spec, by decide, by set_option maxRecDepth 10000 in decide, by decide⟩

end PersonalAssistant
